import Mathlib

/-!
Verification development for the `cellbase` spreadsheet-table library
(`cellbase/celltable.py`, `cellbase/formatter.py`, `cellbase/helper.py`).

The development shallowly embeds the row/column table engine
(`Celltable` / `LocalCelltable`, plus the argument-validation prefix of
`GoogleCelltable.traverse`) as pure Lean functions over explicit state
records.  Python dictionaries (`collections.OrderedDict`, `dict`) are
modelled as association lists that preserve insertion order; fallible
Python operations (`KeyError`, `TypeError`, `ValueError`,
`AttributeError`, `IndexError`) are modelled with `Except`.

Cell objects in the source are mutable and shared between `self.rows`,
`self.cols` and `worksheet._cells`; the embedding is functional, so each
in-place mutation is recorded in the structures whose contents the source
subsequently reads.  Comments at the mutation sites note where sharing is
involved.
-/

set_option linter.unusedVariables false

namespace Cellbase

/-- Python exception kinds raised by the embedded code. -/
inductive PyErr
  | keyError
  | typeError
  | valueError
  | attributeError
  | indexError
  deriving DecidableEq, Repr

/-- Spreadsheet cell values: the tables under test hold ints, strings, or
the empty value Python `None` (openpyxl reports empty cells as `None`). -/
inductive Value
  | int (n : Int)
  | str (s : String)
  | none
  deriving DecidableEq, Repr

/-- Python truthiness of a `Value` (used by `CellFormatter.non_nones`,
which keeps the attributes for which `if self.__getattr__(attr)` holds). -/
def Value.truthy : Value → Bool
  | .int n => n ≠ 0
  | .str s => s ≠ ""
  | .none => false

/-- Python `int(x)`: identity on ints, string parsing for numeric strings
(`ValueError` otherwise), `TypeError` on `None`. -/
def pyToInt : Value → Except PyErr Int
  | .int n => .ok n
  | .str s => match s.toInt? with
      | some n => .ok n
      | Option.none => .error .valueError
  | .none => .error .typeError

/-- An `openpyxl.cell.Cell`: row index, 1-based column index, value, and a
store of style attributes (`font`, `fill`, ... — written by
`CellFormatter.on_format` via `setattr`).  `GoogleCelltable` cells name the
column attribute `col` instead of `col_idx`; the accessor contract is the
same, so a single record serves both backends. -/
structure Cell where
  row : Nat
  col_idx : Nat
  value : Value
  styles : List (String × Value) := []
  deriving DecidableEq, Repr

/-- Header-cell value as the column-name string.  Tables are created from
string schemas (`Cellbase.register`), so header cells always carry
string values. -/
def Cell.nameStr (c : Cell) : String :=
  match c.value with
  | .str s => s
  | _ => ""

/-! ### Ordered dictionaries as association lists

`collections.OrderedDict` and plain `dict` (Python ≥ 3.7) preserve
insertion order: item assignment updates an existing key in place and
appends a fresh key at the end; `pop` removes the entry and raises
`KeyError` when the key is absent. -/

/-- Dictionary lookup (`d[k]` successful case / `k in d`). -/
def odLookup {κ α : Type} [DecidableEq κ] : List (κ × α) → κ → Option α
  | [], _ => Option.none
  | p :: rest, k => if p.1 = k then some p.2 else odLookup rest k

/-- Dictionary item assignment `d[k] = v`: replace in place when the key
exists, append at the end when it is fresh. -/
def odSet {κ α : Type} [DecidableEq κ] : List (κ × α) → κ → α → List (κ × α)
  | [], k, v => [(k, v)]
  | p :: rest, k, v => if p.1 = k then (k, v) :: rest else p :: odSet rest k v

/-- Dictionary `d.pop(k)` without default: `none` models the `KeyError`. -/
def odPop {κ α : Type} [DecidableEq κ] : List (κ × α) → κ → Option (List (κ × α))
  | [], _ => Option.none
  | p :: rest, k =>
      if p.1 = k then some rest
      else (odPop rest k).map (p :: ·)

/-- Keys of a dictionary, in insertion order. -/
def odKeys {κ α : Type} (d : List (κ × α)) : List κ := d.map Prod.fst

/-- A sequence of `d.pop(k)` calls, one per element of the key list
(`KeyError` aborts the whole loop). -/
def popChain {κ α : Type} [DecidableEq κ] : List κ → List (κ × α) → Option (List (κ × α))
  | [], d => some d
  | k :: ks, d => (odPop d k).bind (fun d1 => popChain ks d1)

/-- Python `sorted(d.items())` for an integer-keyed dictionary with
distinct keys: sort by key. -/
def odSortByKey {α : Type} (d : List (Nat × α)) : List (Nat × α) :=
  d.insertionSort (fun p q => p.1 ≤ q.1)

/-! ### Where conditions

A `where` argument maps a column name (or the reserved key
`DAO.COL_ROW_IDX = "row_idx"`) to either a literal value or a one-argument
predicate; the source distinguishes the two with `callable(cond)`. -/

/-- The reserved row-index key (`helper.DAO.COL_ROW_IDX`). -/
def COL_ROW_IDX : String := "row_idx"

/-- One clause value of a `where` dict: a literal or a callable predicate. -/
inductive Cond
  | lit (v : Value)
  | pred (p : Value → Bool)

/-- A `where` dict: ordered association list with the keys of a Python
dict (callers build these from dict literals, so keys are distinct). -/
abbrev Where := List (String × Cond)

/-- Evaluation of one clause against a cell value:
`cond(cell.value) if callable(cond) else cell.value == cond`. -/
def condTest (c : Cond) (v : Value) : Bool :=
  match c with
  | .lit w => decide (v = w)
  | .pred p => p v

/-- Table row store: `self.rows`, an ordered dict from row index to the
dict mapping column name to cell. -/
abbrev Rows := List (Nat × List (String × Cell))

/-- Table column store: `self.cols`, a dict from column name to the list
of that column's cells. -/
abbrev Cols := List (String × List Cell)

/-- The row-index clause resolution prefix of `_row_idxs_where`: a
callable clause scans the row keys, a literal is converted with `int` and
looked up directly. -/
def rowIdxBase (rows : Rows) (w : Where) : Except PyErr (List Nat) :=
  match odLookup w COL_ROW_IDX with
  | Option.none => Except.ok []
  | some (.pred p) =>
      Except.ok ((odKeys rows).filter (fun r => p (.int (Int.ofNat r))))
  | some (.lit v) => do
      let ri ← pyToInt v
      Except.ok (if 0 ≤ ri ∧ ri.toNat ∈ odKeys rows then [ri.toNat] else [])

/-- One step of the per-column scan of `_row_idxs_where`:
`cell.row not in row_idxs and cond(cell.value) if callable(cond) else cell.value == cond`
— by Python conditional-expression precedence the duplicate guard binds
only to the callable branch. -/
def colScanStep (cond : Cond) (acc2 : List Nat) (c : Cell) : List Nat :=
  if (match cond with
      | .pred q => decide (c.row ∉ acc2) && q c.value
      | .lit v => decide (c.value = v))
  then acc2 ++ [c.row] else acc2

/-- Scan of one column cell list against its clause. -/
def colScan (cond : Cond) (cells : List Cell) (acc : List Nat) : List Nat :=
  cells.foldl (colScanStep cond) acc

/-- One clause of the `_row_idxs_where` loop over `where.items()`: the
row-index key is skipped (already resolved), any other key indexes
`self.cols` (`KeyError` when absent) and scans that column. -/
def whereClauseStep (cols : Cols) (acc : List Nat) (p : String × Cond) :
    Except PyErr (List Nat) :=
  if p.1 = COL_ROW_IDX then Except.ok acc
  else
    match odLookup cols p.1 with
    | Option.none => Except.error .keyError
    | some cells => Except.ok (colScan p.2 cells acc)

/-- `Celltable._row_idxs_where`: row indices where ANY condition matches.
The row-index clause is resolved first, then every named column's cell
list is scanned against its clause (a union, not a conjunction). -/
def rowIdxsWhereRC (rows : Rows) (cols : Cols) : Option Where → Except PyErr (List Nat)
  | Option.none => .ok (odKeys rows)
  | some w => do
      let base ← rowIdxBase rows w
      w.foldlM (whereClauseStep cols) base

/-- One clause check of `_col_names_where`: the row-index clause is
tested against `row_idx` itself (`row_idx == int(cond)` for a literal),
a column clause against the cell of that column in `self.rows[row_idx]`
(`KeyError` when the row or the column is absent). -/
def colNameStep (rows : Rows) (row_idx : Nat) (acc : List String) (p : String × Cond) :
    Except PyErr (List String) :=
  if p.1 = COL_ROW_IDX then
    match p.2 with
    | .pred q =>
        Except.ok (if q (.int (Int.ofNat row_idx)) then acc ++ [p.1] else acc)
    | .lit v => do
        let ri ← pyToInt v
        Except.ok (if (Int.ofNat row_idx) = ri then acc ++ [p.1] else acc)
  else
    match odLookup rows row_idx with
    | Option.none => Except.error .keyError
    | some row =>
        match odLookup row p.1 with
        | Option.none => Except.error .keyError
        | some c => Except.ok (if condTest p.2 c.value then acc ++ [p.1] else acc)

/-- `Celltable._col_names_where`: the clause keys of `where` satisfied by
the given row. -/
def colNamesWhereRC (rows : Rows) (cols : Cols) (row_idx : Nat) :
    Option Where → Except PyErr (List String)
  | Option.none => .ok (cols.map Prod.fst)
  | some w => w.foldlM (colNameStep rows row_idx) []

/-- The filter step of `_row_and_col_where`: keep a candidate row when
the number of satisfied clauses equals `len(where)`. -/
def conjStep (rows : Rows) (cols : Cols) (w : Where) (acc : List Nat) (r : Nat) :
    Except PyErr (List Nat) := do
  let names ← colNamesWhereRC rows cols r (some w)
  Except.ok (if names.length = w.length then acc ++ [r] else acc)

/-- `Celltable._row_and_col_where`: conjunction — keep the indices from
`_row_idxs_where` whose satisfied-clause count equals `len(where)`. -/
def rowAndColWhereRC (rows : Rows) (cols : Cols) : Option Where → Except PyErr (List Nat)
  | Option.none => rowIdxsWhereRC rows cols Option.none
  | some w => do
      let l ← rowIdxsWhereRC rows cols (some w)
      l.foldlM (conjStep rows cols w) []

/-! ### The local table (`LocalCelltable` over an openpyxl worksheet) -/

/-- `LocalCelltable` state: header cells (`self.col_ids`), the ordered row
store (`self.rows`), the per-column cell lists (`self.cols`), and the
worksheet's physical cell store (`worksheet._cells`, a dict keyed by
`(row, column)`).  `worksheet._current_row` is saved and restored by
`safe_append`, so it needs no field of its own. -/
structure LocalTable where
  col_ids : List Cell
  rows : Rows
  cols : Cols
  wsCells : List ((Nat × Nat) × Cell)
  deriving Repr

/-- Data-row count: `Celltable.__len__` (`len(self.rows)`, header excluded). -/
def LocalTable.size (t : LocalTable) : Nat := t.rows.length

/-- `worksheet.max_row`: the largest row index among the stored cells
(1 for an empty sheet). -/
def wsMaxRow (t : LocalTable) : Nat :=
  t.wsCells.foldl (fun m kc => max m kc.1.1) 1

/-- A table freshly created by `LocalCellbase._on_create`: the schema names
are appended as the header row, then `LocalCelltable.__init__` derives
`col_ids` from row 1 (cells with a non-`None` value), initializes one empty
column list per header name, and finds no content rows. -/
def mkTable (names : List String) : LocalTable :=
  let hdr := (List.range names.length).map
    (fun i => { row := 1, col_idx := i + 1, value := Value.str (names.getD i "") : Cell })
  { col_ids := hdr
    rows := []
    cols := names.map (fun nm => (nm, []))
    wsCells := hdr.map (fun c => ((1, c.col_idx), c)) }

/-- `LocalCelltable.query`: for each row matching all conditions, a record
holding the row index under the reserved key followed by each column's
value in schema order. -/
def localQuery (t : LocalTable) (w : Option Where) :
    Except PyErr (List (List (String × Value))) := do
  let l ← rowAndColWhereRC t.rows t.cols w
  l.mapM (fun r =>
    match odLookup t.rows r with
    | Option.none => Except.error .keyError
    | some row =>
        Except.ok ((COL_ROW_IDX, Value.int (Int.ofNat r)) ::
          row.map (fun nc => (nc.1, nc.2.value))))

/-- Lookup of a dict keyed by strings with a header-cell value
(`value_in_dict[col_id.value]`): header values are the schema strings, and
a non-string key is simply absent from a string-keyed dict. -/
def lookupByHeaderValue (data : List (String × Value)) (v : Value) : Option Value :=
  match v with
  | .str s => odLookup data s
  | _ => Option.none

/-- One entry of the appended dict
`{col_id.col_idx: value_in_dict[col_id.value]}` (`KeyError` on a missing
column value); the whole dict is evaluated before any write. -/
def insertValFn (data : List (String × Value)) (cid : Cell) : Except PyErr (Nat × Value) :=
  match lookupByHeaderValue data cid.value with
  | Option.none => Except.error .keyError
  | some v => Except.ok (cid.col_idx, v)

/-- `worksheet.append` at the pinned row: create one cell per appended
column. -/
def appendCells (wsCells : List ((Nat × Nat) × Cell)) (newRow : Nat)
    (vals : List (Nat × Value)) : List ((Nat × Nat) × Cell) :=
  vals.foldl
    (fun ws cv => odSet ws (newRow, cv.1) { row := newRow, col_idx := cv.1, value := cv.2 })
    wsCells

/-- The read-back loop of `insert`: fetch the created cell from
`worksheet._cells` and register the shared object into the new row dict
and into `self.cols[col_id.value]`. -/
def insertRegStep (ws1 : List ((Nat × Nat) × Cell)) (new_row_idx : Nat)
    (rc : List (String × Cell) × Cols) (cid : Cell) :
    Except PyErr (List (String × Cell) × Cols) :=
  match odLookup ws1 (new_row_idx, cid.col_idx) with
  | Option.none => Except.error .keyError
  | some c =>
      match odLookup rc.2 cid.nameStr with
      | Option.none => Except.error .keyError
      | some cs => Except.ok (odSet rc.1 cid.nameStr c, odSet rc.2 cid.nameStr (cs ++ [c]))

/-- `LocalCelltable.insert`.  `safe_append` pins `worksheet._current_row`
to `max_row` (restoring it afterwards), so `worksheet.append` writes the
new cells at row `max_row + 1`; the new row index is re-read as
`worksheet.max_row`, and the created cells are read back from
`worksheet._cells` and registered into `rows` and `cols` (one shared cell
object per column). -/
def localInsert (t : LocalTable) (data : List (String × Value)) :
    Except PyErr (LocalTable × Nat) := do
  let vals ← t.col_ids.mapM (insertValFn data)
  let newRow := wsMaxRow t + 1
  let ws1 := appendCells t.wsCells newRow vals
  let t1 : LocalTable := { t with wsCells := ws1 }
  let new_row_idx := wsMaxRow t1
  let rc ← t.col_ids.foldlM (insertRegStep t1.wsCells new_row_idx)
    (([] : List (String × Cell)), t.cols)
  Except.ok ({ t1 with rows := odSet t1.rows new_row_idx rc.1, cols := rc.2 }, new_row_idx)

/-- The `fn` argument of `traverse`: either a callable cell mutator or a
non-callable value (rejected with `TypeError`).  A mutator may itself
raise (the closure built by `update` looks values up in a dict). -/
inductive TraverseFn
  | notCallable (v : Value)
  | callable (f : Cell → Except PyErr Cell)

/-- `LocalCelltable.traverse`: reject a non-callable `fn` before anything
is read or written, resolve the matched row indices with
`_row_idxs_where` (the ANY-clause union), default `select` to all columns,
then apply `fn` to every matched row's selected cells.  Each mutated cell
is written back into `worksheet._cells` at its coordinate; `rows` holds
the same mutated object (and `cols` shares it too, which no later read in
this development consults between mutations). -/
def localTraverse (t : LocalTable) (fn : TraverseFn) (w : Option Where)
    (select : Option (List String)) : Except PyErr (LocalTable × Nat) :=
  match fn with
  | .notCallable _ => .error .typeError
  | .callable f => do
      let rid ← rowIdxsWhereRC t.rows t.cols w
      let sel := select.getD (t.col_ids.map Cell.nameStr)
      let t' ← rid.foldlM
        (fun tAcc row_idx =>
          (t.col_ids.filter (fun cid => sel.contains cid.nameStr)).foldlM
            (fun tAcc2 cid =>
              match odLookup tAcc2.rows row_idx with
              | Option.none => Except.error .keyError
              | some row =>
                match odLookup row cid.nameStr with
                | Option.none => Except.error .keyError
                | some c => do
                    let c' ← f c
                    Except.ok { tAcc2 with
                      rows := odSet tAcc2.rows row_idx (odSet row cid.nameStr c'),
                      wsCells := odSet tAcc2.wsCells (row_idx, cid.col_idx) c' })
            tAcc)
        t
      Except.ok (t', rid.length)

/-- One in-place assignment
`cell.value = value_in_dict[self._col_idx_to_col_id(cell.col_idx).value]`
(`IndexError` on a column index outside the header, `KeyError` on a
missing dict key). -/
def updCellFn (col_ids : List Cell) (data : List (String × Value)) (nc : String × Cell) :
    Except PyErr (String × Cell) :=
  match col_ids.get? (nc.2.col_idx - 1) with
  | Option.none => Except.error .indexError
  | some cid =>
    match lookupByHeaderValue data cid.value with
    | Option.none => Except.error .keyError
    | some v => Except.ok (nc.1, { nc.2 with value := v })

/-- The per-cell loop of `LocalCelltable.update` with `where=None`:
`for cell in list(row.values())[1:]` — the first schema column's cell is
skipped and keeps its value; every later cell is assigned its value from
the update dict. -/
def updateRowTail (col_ids : List Cell) (data : List (String × Value)) :
    List (String × Cell) → Except PyErr (List (String × Cell))
  | [] => Except.ok []
  | first :: rest => do
      let rest' ← rest.mapM (updCellFn col_ids data)
      Except.ok (first :: rest')

/-- `LocalCelltable.update`.  With `where=None` the row at
`value_in_dict[DAO.COL_ROW_IDX]` is fetched (`KeyError` when the key or
the row is missing) and its cells after the first are overwritten in
place; the return value is 1.  With a non-`None` `where` the call
delegates to `traverse` with a value-writing closure and
`select = [col_id.value for col_id in self.col_ids if col_id.value in value_in_dict]`. -/
def localUpdate (t : LocalTable) (data : List (String × Value)) (w : Option Where) :
    Except PyErr (LocalTable × Nat) :=
  match w with
  | Option.none =>
    match odLookup data COL_ROW_IDX with
    | Option.none => Except.error .keyError
    | some rv =>
      match rv with
      | .int n =>
        if n < 0 then Except.error .keyError else
        match odLookup t.rows n.toNat with
        | Option.none => Except.error .keyError
        | some row => do
          let row' ← updateRowTail t.col_ids data row
          Except.ok ({ t with rows := odSet t.rows n.toNat row' }, 1)
      | _ => Except.error .keyError
  | some w' =>
    localTraverse t
      (.callable (fun c =>
        match t.col_ids.get? (c.col_idx - 1) with
        | Option.none => Except.error .indexError
        | some cid =>
          match lookupByHeaderValue data cid.value with
          | Option.none => Except.error .keyError
          | some v => Except.ok { c with value := v }))
      (some w')
      (some ((t.col_ids.filter (fun cid => (lookupByHeaderValue data cid.value).isSome)).map Cell.nameStr))

/-- Python `min` over a non-empty list `a :: as`. -/
def listMin (a : Nat) (as : List Nat) : Nat := as.foldl min a

/-- The shift step of the delete compaction:
`for col_id in self.col_ids: row[col_id.value].row = new_row_idx` —
reassign the row attribute of every cell of one row dict (`KeyError` when
a column is missing from the row). -/
def setRowIdx (col_ids : List Cell) (idx : Nat) (row : List (String × Cell)) :
    Except PyErr (List (String × Cell)) :=
  col_ids.foldlM (fun r cid =>
    match odLookup r cid.nameStr with
    | Option.none => Except.error .keyError
    | some c => Except.ok (odSet r cid.nameStr { c with row := idx })) row

/-- One iteration of the shift-down loop: reassign the row attribute of
the next surviving row object and store it at its new key. -/
def shiftStep (col_ids : List Cell) (d : Rows) (ir : Nat × List (String × Cell)) :
    Except PyErr Rows := do
  let row' ← setRowIdx col_ids ir.1 ir.2
  Except.ok (odSet d ir.1 row')

/-- `self.cols[col_id.value].clear()` for one column (`KeyError` when the
name is missing from the cols dict). -/
def clearColsStep (cs : Cols) (cid : Cell) : Except PyErr Cols :=
  match odLookup cs cid.nameStr with
  | Option.none => Except.error .keyError
  | some _ => Except.ok (odSet cs cid.nameStr ([] : List Cell))

/-- The header re-append after `worksheet._cells.clear()`: `safe_append`
with `first_row=True` writes the header values at row 1. -/
def headerCells (col_ids : List Cell) : List ((Nat × Nat) × Cell) :=
  col_ids.foldl
    (fun ws cid => odSet ws (1, cid.col_idx)
      { row := 1, col_idx := cid.col_idx, value := cid.value })
    ([] : List ((Nat × Nat) × Cell))

/-- One cell of the rebuild loop: copy the surviving cell into the
worksheet store at its new coordinate and append it to its column list. -/
def rebuildCellStep (rrow : Nat × List (String × Cell))
    (cw2 : Cols × List ((Nat × Nat) × Cell)) (cid : Cell) :
    Except PyErr (Cols × List ((Nat × Nat) × Cell)) :=
  match odLookup rrow.2 cid.nameStr with
  | Option.none => Except.error .keyError
  | some c =>
      match odLookup cw2.1 cid.nameStr with
      | Option.none => Except.error .keyError
      | some cs => Except.ok
          (odSet cw2.1 cid.nameStr (cs ++ [c]), odSet cw2.2 (rrow.1, cid.col_idx) c)

/-- One surviving row of the rebuild loop. -/
def rebuildStep (col_ids : List Cell) (cw : Cols × List ((Nat × Nat) × Cell))
    (rrow : Nat × List (String × Cell)) : Except PyErr (Cols × List ((Nat × Nat) × Cell)) :=
  col_ids.foldlM (rebuildCellStep rrow) cw

/-- `LocalCelltable.delete`.  Matched indices come from
`_row_and_col_where`; with no match the body executes a bare `return`,
which yields Python `None` (modelled as `Option.none`).  Otherwise: pop
every matched row (`dict.pop` raises `KeyError` on a duplicate in the
match list), shift the surviving rows down to fill the gap starting at the
smallest popped index (the snapshot `list(self.rows.values())` is taken
once; the in-place `.row` writes mutate row objects whose stale aliases at
old keys are popped right after, as the trailing-pop list removes exactly
the slots beyond the new extent), sort the dict by key, and rebuild `cols`
and `worksheet._cells` from scratch: clear both, re-append the header
(`safe_append` with `first_row=True` writes the header values at row 1),
then store a copy of every surviving cell at its new coordinate.
Row indices are at least 2 in any table with a header row, so the Python
slice start `first_popped - 2` and the trailing indices `max_row - i` are
non-negative; natural subtraction matches the source there. -/
def localDelete (t : LocalTable) (w : Option Where) :
    Except PyErr (LocalTable × Option Nat) := do
  let row_idxs_where ← rowAndColWhereRC t.rows t.cols w
  match row_idxs_where with
  | [] => Except.ok (t, Option.none)
  | a :: as => do
      let L := a :: as
      let affected := L.length
      let begin_max_row := wsMaxRow t
      let rows1 ← match popChain L t.rows with
        | some d => Except.ok d
        | Option.none => Except.error .keyError
      let first_popped := listMin a as
      let index_range := List.range' first_popped (begin_max_row + 1 - first_popped)
      let rows_after := (rows1.map Prod.snd).drop (first_popped - 2)
      let rows2 ← (index_range.zip rows_after).foldlM (shiftStep t.col_ids) rows1
      let trailing := ((List.range affected).map (fun i => begin_max_row - i)).filter
        (fun k => decide (k ∉ L))
      let rows3 ← match popChain trailing rows2 with
        | some d => Except.ok d
        | Option.none => Except.error .keyError
      let rows4 := odSortByKey rows3
      let cols0 ← t.col_ids.foldlM clearColsStep t.cols
      let ws1 := headerCells t.col_ids
      let cw ← rows4.foldlM (rebuildStep t.col_ids) (cols0, ws1)
      Except.ok ({ t with rows := rows4, cols := cw.1, wsCells := cw.2 }, some affected)

/-! ### Formatter (`CellFormatter` / `LocalCellFormatter`) -/

/-- `LocalCellFormatter.ATTRIBUTES`. -/
def localFormatterAttrs : List String :=
  ["font", "fill", "border", "number_format", "protection", "alignment", "style"]

/-- A `LocalCellFormatter` instance: its `__dict__`, holding the attribute
values assigned so far (construction and `__setattr__` permit only names
from `ATTRIBUTES`). -/
structure LocalCellFormatter where
  attrsDict : List (String × Value) := []

/-- Attribute read on a `LocalCellFormatter`.  A name in `ATTRIBUTES`
resolves to the stored value, with `CellFormatter.__getattr__` supplying
the default `None` when the attribute was never assigned; any other name
is not found normally (it is neither a data attribute nor a method), so
`__getattr__` runs and raises `AttributeError`. -/
def lcfGetattr (f : LocalCellFormatter) (attr : String) : Except PyErr Value :=
  if localFormatterAttrs.contains attr then
    Except.ok ((odLookup f.attrsDict attr).getD Value.none)
  else Except.error .attributeError

/-- `CellFormatter.non_nones`: the attributes whose stored value is truthy. -/
def lcfNonNones (f : LocalCellFormatter) : List String :=
  localFormatterAttrs.filter (fun a => ((odLookup f.attrsDict a).getD Value.none).truthy)

/-- `CellFormatter.format`: apply every truthy attribute to the cell via
`setattr(cell, attr, value)` (`LocalCellFormatter.on_format`); an empty
attribute list makes the call a no-op. -/
def lcfFormat (f : LocalCellFormatter) (c : Cell) : Cell :=
  (lcfNonNones f).foldl
    (fun c a => { c with styles := odSet c.styles a ((odLookup f.attrsDict a).getD Value.none) })
    c

/-- `LocalCelltable.format`:
`if where is None and formatter.is_empty(): return 0` and otherwise
delegate to `traverse` with the formatter closure.  `CellFormatter`
defines no attribute or method named `is_empty`, so with `where=None` the
lookup falls through to `CellFormatter.__getattr__`, which raises
`AttributeError` for any name outside `attrs()`; the `return 0` branch is
unreachable. -/
def localFormat (t : LocalTable) (f : LocalCellFormatter) (w : Option Where)
    (select : Option (List String)) : Except PyErr (LocalTable × Nat) :=
  match w with
  | Option.none => do
      let m ← lcfGetattr f "is_empty"
      if m.truthy then Except.ok (t, 0)
      else localTraverse t (.callable (fun c => Except.ok (lcfFormat f c))) Option.none select
  | some w' =>
      localTraverse t (.callable (fun c => Except.ok (lcfFormat f c))) (some w') select

/-! ### The remote table (`GoogleCelltable` over a pygsheets worksheet)

Only the parts exercised by the claims are embedded: `traverse`, whose
argument-validation prefix is shared verbatim with the local backend.  The
worksheet is represented by the batched `update_cells` calls issued. -/

structure GoogleTable where
  col_ids : List Cell
  rows : Rows
  cols : Cols
  maxRow : Nat
  wsUpdates : List (List Cell)

/-- `GoogleCelltable.traverse`: reject a non-callable `fn` with
`TypeError` before any cell is read, unlinked or written; otherwise unlink
each matched cell, apply `fn`, collect the mutated cells and push them in
a single batched `worksheet.update_cells` call, then re-link. -/
def googleTraverse (gt : GoogleTable) (fn : TraverseFn) (w : Option Where)
    (select : Option (List String)) : Except PyErr (GoogleTable × Nat) :=
  match fn with
  | .notCallable _ => .error .typeError
  | .callable f => do
      let rid ← rowIdxsWhereRC gt.rows gt.cols w
      let sel := select.getD (gt.col_ids.map Cell.nameStr)
      let rb ← rid.foldlM
        (fun rb row_idx =>
          (gt.col_ids.filter (fun cid => sel.contains cid.nameStr)).foldlM
            (fun rb2 cid =>
              match odLookup rb2.1 row_idx with
              | Option.none => Except.error .keyError
              | some row =>
                match odLookup row cid.nameStr with
                | Option.none => Except.error .keyError
                | some c => do
                    let c' ← f c
                    Except.ok (odSet rb2.1 row_idx (odSet row cid.nameStr c'), rb2.2 ++ [c']))
            rb)
        (gt.rows, ([] : List Cell))
      Except.ok ({ gt with rows := rb.1, wsUpdates := gt.wsUpdates ++ [rb.2] }, rid.length)

/-! ### Operation sequences and the structural invariant -/

/-- One mutating table operation, for stating the contiguity invariant
over arbitrary insert/delete sequences. -/
inductive TableOp
  | insertOp (data : List (String × Value))
  | deleteOp (w : Option Where)

/-- Apply one operation, keeping the table state. -/
def applyOp (t : LocalTable) : TableOp → Except PyErr LocalTable
  | .insertOp d => (localInsert t d).map Prod.fst
  | .deleteOp w => (localDelete t w).map Prod.fst

/-- Run a sequence of operations; an exception aborts the run. -/
def runOps (t : LocalTable) : List TableOp → Except PyErr LocalTable
  | [] => .ok t
  | op :: rest =>
      match applyOp t op with
      | .ok t' => runOps t' rest
      | .error e => .error e

/-- Structural well-formedness of a `LocalCelltable`, as established by
construction from a schema (`mkTable`): row keys are exactly
`{2, ..., size + 1}` in order, the worksheet extent is `size + 1`, every
row dict carries exactly the schema column names in order, and the header
is a non-empty list of distinct names. -/
def invB (t : LocalTable) : Bool :=
  decide (odKeys t.rows = List.range' 2 t.rows.length)
  && decide (wsMaxRow t = t.rows.length + 1)
  && t.rows.all (fun p => decide (p.2.map Prod.fst = t.col_ids.map Cell.nameStr))
  && decide (t.col_ids ≠ [])
  && decide ((t.col_ids.map Cell.nameStr).Nodup)

/-! ### Concrete tables used by the claim instances

The schema is the test-suite schema `['id', 'name']`; rows are inserted as
`{id: i, name: "simple<i>"}`, matching the behavior tests. -/

/-- Insert payload `{id: i, name: s}`. -/
def dataN (i : Int) (s : String) : List (String × Value) :=
  [("id", Value.int i), ("name", Value.str s)]

/-- A freshly created two-column table. -/
def tableT0 : LocalTable := mkTable ["id", "name"]

/-- The first `k` test-style insert operations. -/
def insOps (k : Nat) : List TableOp :=
  (List.range k).map (fun i => TableOp.insertOp (dataN (Int.ofNat i) ("simple" ++ toString i)))

/-- The table after one insert (one data row at index 2). -/
def tableT1 : LocalTable := (runOps tableT0 (insOps 1)).toOption.getD tableT0

/-- The table after two inserts (data rows at indices 2 and 3). -/
def tableT2 : LocalTable := (runOps tableT0 (insOps 2)).toOption.getD tableT0

/-- The table after five inserts (data rows at indices 2..6, ids 0..4). -/
def tableT5 : LocalTable := (runOps tableT0 (insOps 5)).toOption.getD tableT0

/-- Shorthand for an expected query record. -/
def queryRec (r : Nat) (i : Int) (s : String) : List (String × Value) :=
  [(COL_ROW_IDX, Value.int (Int.ofNat r)), ("id", Value.int i), ("name", Value.str s)]

/-- Satisfaction of a single `where` clause by a row, as tested by
`_col_names_where`: the row-index clause is checked against the row index
itself, a column clause against the cell stored for that column in
`self.rows[row_idx]`. -/
def clauseHolds (rows : Rows) (r : Nat) (nm : String) (cond : Cond) : Prop :=
  if nm = COL_ROW_IDX then
    match cond with
    | .pred p => p (.int (Int.ofNat r)) = true
    | .lit v => pyToInt v = .ok (Int.ofNat r)
  else
    ∃ row c, odLookup rows r = some row ∧ odLookup row nm = some c ∧
      condTest cond c.value = true

/-- A single `where` clause placing row `r` in the `_row_idxs_where`
union: the row-index clause fires on a table row index it accepts, a
column clause fires on a cell of the named column list whose row
attribute is `r`. -/
def clauseTrigger (rows : Rows) (cols : Cols) (nm : String) (cond : Cond) (r : Nat) : Prop :=
  if nm = COL_ROW_IDX then
    r ∈ odKeys rows ∧
    (match cond with
     | .pred p => p (.int (Int.ofNat r)) = true
     | .lit v => pyToInt v = .ok (Int.ofNat r))
  else
    ∃ cs c, odLookup cols nm = some cs ∧ c ∈ cs ∧ c.row = r ∧
      condTest cond c.value = true

/-- Propositional form of `invB`. -/
def InvP (t : LocalTable) : Prop :=
  odKeys t.rows = List.range' 2 t.rows.length ∧
  wsMaxRow t = t.rows.length + 1 ∧
  (∀ p ∈ t.rows, p.2.map Prod.fst = t.col_ids.map Cell.nameStr) ∧
  t.col_ids ≠ [] ∧
  (t.col_ids.map Cell.nameStr).Nodup

/-- The two-clause condition used to exhibit the ANY-vs-ALL asymmetry:
row 2 of `tableT2` satisfies only the `id` clause, row 3 only the `name`
clause, and no row satisfies both. -/
def where9 : Where :=
  [("id", Cond.lit (Value.int 0)), ("name", Cond.lit (Value.str "simple1"))]

/-- A marker mutator for `traverse`: overwrite the cell value with "X". -/
def fn9 : TraverseFn := .callable (fun c => Except.ok { c with value := Value.str "X" })

/-- Update payload for the disjunction demonstration. -/
def data9 : List (String × Value) := [("id", Value.int 7), ("name", Value.str "y")]

/-- Update payload containing the reserved row-index key (targets row 2)
plus values for both schema columns. -/
def dataUpd10 : List (String × Value) :=
  [(COL_ROW_IDX, Value.int 2), ("id", Value.int 99), ("name", Value.str "z")]

/-- Result of `update(dataUpd10, where=None)` on the two-row table. -/
def updRes10 : LocalTable × Nat :=
  (localUpdate tableT2 dataUpd10 Option.none).toOption.getD (tableT2, 0)

/-- Payload for the C8 insert round trip. -/
def data8 : List (String × Value) := [("id", Value.int 1), ("name", Value.str "a")]

instance : IsTotal (Nat × List (String × Cell)) (fun p q => p.1 ≤ q.1) :=
  ⟨fun a b => Nat.le_total a.1 b.1⟩

instance : IsTrans (Nat × List (String × Cell)) (fun p q => p.1 ≤ q.1) :=
  ⟨fun _ _ _ h h' => Nat.le_trans h h'⟩

end Cellbase

namespace Cellbase

/-! ## Helper lemmas about the dictionary model -/

@[simp] theorem odKeys_nil {κ α : Type} : odKeys ([] : List (κ × α)) = [] := rfl

@[simp] theorem odKeys_cons {κ α : Type} (p : κ × α) (d : List (κ × α)) :
    odKeys (p :: d) = p.1 :: odKeys d := rfl

@[simp] theorem odLookup_nil {κ α : Type} [DecidableEq κ] (k : κ) :
    odLookup ([] : List (κ × α)) k = Option.none := rfl

@[simp] theorem odLookup_cons {κ α : Type} [DecidableEq κ] (p : κ × α) (d : List (κ × α)) (k : κ) :
    odLookup (p :: d) k = if p.1 = k then some p.2 else odLookup d k := rfl

theorem odSet_nil {κ α : Type} [DecidableEq κ] (k : κ) (v : α) :
    odSet ([] : List (κ × α)) k v = [(k, v)] := rfl

theorem odSet_cons_eq {κ α : Type} [DecidableEq κ] {p : κ × α} {d : List (κ × α)} {k : κ}
    (v : α) (h : p.1 = k) : odSet (p :: d) k v = (k, v) :: d := by
  show (if p.1 = k then (k, v) :: d else p :: odSet d k v) = (k, v) :: d
  rw [if_pos h]

theorem odSet_cons_ne {κ α : Type} [DecidableEq κ] {p : κ × α} {d : List (κ × α)} {k : κ}
    (v : α) (h : ¬ p.1 = k) : odSet (p :: d) k v = p :: odSet d k v := by
  show (if p.1 = k then (k, v) :: d else p :: odSet d k v) = p :: odSet d k v
  rw [if_neg h]

@[simp] theorem except_pure_eq {ε α : Type} (a : α) : (pure a : Except ε α) = Except.ok a := rfl

@[simp] theorem except_ok_bind {ε α β : Type} (a : α) (f : α → Except ε β) :
    (Except.ok a >>= f : Except ε β) = f a := rfl

@[simp] theorem except_error_bind {ε α β : Type} (e : ε) (f : α → Except ε β) :
    (Except.error e >>= f : Except ε β) = Except.error e := rfl

theorem odLookup_odSet_ne {κ α : Type} [DecidableEq κ] (d : List (κ × α)) (k k' : κ) (v : α)
    (h : k' ≠ k) : odLookup (odSet d k v) k' = odLookup d k' := by
  induction d with
  | nil => rw [odSet_nil]; simp [Ne.symm h]
  | cons p d ih =>
      by_cases hp : p.1 = k
      · rw [odSet_cons_eq v hp]
        simp only [odLookup_cons]
        rw [if_neg (show ¬ k = k' from fun he => h he.symm),
            if_neg (show ¬ p.1 = k' from fun he => h (he.symm.trans hp))]
      · rw [odSet_cons_ne v hp]
        simp only [odLookup_cons, ih]

theorem odLookup_eq_some_of_mem_nodup {κ α : Type} [DecidableEq κ] :
    ∀ (d : List (κ × α)) (k : κ) (v : α), (d.map Prod.fst).Nodup → (k, v) ∈ d →
      odLookup d k = some v := by
  intro d
  induction d with
  | nil => intro k v _ h; simp at h
  | cons p rest ih =>
      intro k v hnd hm
      simp only [List.map_cons, List.nodup_cons] at hnd
      rcases List.mem_cons.1 hm with h | h
      · rw [← h]; simp
      · have hk : ¬ p.1 = k := by
          intro he
          exact hnd.1 (he ▸ List.mem_map.2 ⟨(k, v), h, rfl⟩)
        simp only [odLookup_cons, if_neg hk]
        exact ih k v hnd.2 h

theorem mem_odKeys_odSet {κ α : Type} [DecidableEq κ] :
    ∀ (d : List (κ × α)) (k x : κ) (v : α),
      (x ∈ odKeys (odSet d k v) ↔ x ∈ odKeys d ∨ x = k) := by
  intro d
  induction d with
  | nil => intro k x v; rw [odSet_nil]; simp
  | cons p d ih =>
      intro k x v
      by_cases hp : p.1 = k
      · rw [odSet_cons_eq v hp]
        subst hp
        simp only [odKeys_cons, List.mem_cons]
        tauto
      · rw [odSet_cons_ne v hp]
        simp only [odKeys_cons, List.mem_cons, ih]
        tauto

theorem odKeys_odSet_of_mem {κ α : Type} [DecidableEq κ] :
    ∀ (d : List (κ × α)) (k : κ) (v : α), k ∈ odKeys d →
      odKeys (odSet d k v) = odKeys d := by
  intro d
  induction d with
  | nil => intro k v h; simp at h
  | cons p d ih =>
      intro k v h
      by_cases hp : p.1 = k
      · rw [odSet_cons_eq v hp]
        simp [hp]
      · rw [odSet_cons_ne v hp]
        simp only [odKeys_cons] at h ⊢
        rcases List.mem_cons.1 h with h' | h'
        · exact absurd h'.symm hp
        · rw [ih k v h']

theorem odKeys_odSet_of_not_mem {κ α : Type} [DecidableEq κ] :
    ∀ (d : List (κ × α)) (k : κ) (v : α), k ∉ odKeys d →
      odKeys (odSet d k v) = odKeys d ++ [k] := by
  intro d
  induction d with
  | nil => intro k v _; rw [odSet_nil]; rfl
  | cons p d ih =>
      intro k v h
      have h' : k ∉ p.1 :: odKeys d := h
      have h1 : ¬ p.1 = k := fun he => h' (List.mem_cons.2 (Or.inl he.symm))
      have h2 : k ∉ odKeys d := fun hm => h' (List.mem_cons.2 (Or.inr hm))
      rw [odSet_cons_ne v h1]
      simp only [odKeys_cons, ih k v h2, List.cons_append]

theorem nodup_odKeys_odSet {κ α : Type} [DecidableEq κ] (d : List (κ × α)) (k : κ) (v : α)
    (h : (odKeys d).Nodup) : (odKeys (odSet d k v)).Nodup := by
  by_cases hk : k ∈ odKeys d
  · rw [odKeys_odSet_of_mem d k v hk]; exact h
  · rw [odKeys_odSet_of_not_mem d k v hk]
    simp [List.nodup_append, h, hk]

theorem odSet_values_src {κ α : Type} [DecidableEq κ] :
    ∀ (d : List (κ × α)) (k : κ) (v r : α), r ∈ (odSet d k v).map Prod.snd →
      r ∈ d.map Prod.snd ∨ r = v := by
  intro d
  induction d with
  | nil => intro k v r h; rw [odSet_nil] at h; right; simpa using h
  | cons p d ih =>
      intro k v r h
      by_cases hp : p.1 = k
      · rw [odSet_cons_eq v hp] at h
        simp only [List.map_cons, List.mem_cons] at h ⊢
        tauto
      · rw [odSet_cons_ne v hp] at h
        simp only [List.map_cons, List.mem_cons] at h ⊢
        rcases h with h | h
        · tauto
        · rcases ih k v r h with h' | h' <;> tauto

theorem mem_odSet_src {κ α : Type} [DecidableEq κ] :
    ∀ (d : List (κ × α)) (k : κ) (v : α) (x : κ × α), x ∈ odSet d k v →
      x ∈ d ∨ x = (k, v) := by
  intro d
  induction d with
  | nil => intro k v x h; rw [odSet_nil] at h; right; simpa using h
  | cons p d ih =>
      intro k v x h
      by_cases hp : p.1 = k
      · rw [odSet_cons_eq v hp] at h
        rcases List.mem_cons.1 h with h | h
        · right; exact h
        · left; exact List.mem_cons.2 (Or.inr h)
      · rw [odSet_cons_ne v hp] at h
        rcases List.mem_cons.1 h with h | h
        · left; exact List.mem_cons.2 (Or.inl h)
        · rcases ih k v x h with h' | h'
          · left; exact List.mem_cons.2 (Or.inr h')
          · right; exact h'

theorem odSet_key_mem {κ α : Type} [DecidableEq κ] :
    ∀ (d : List (κ × α)) (k : κ) (v : α), ∃ kc ∈ odSet d k v, kc.1 = k := by
  intro d
  induction d with
  | nil => intro k v; exact ⟨(k, v), by rw [odSet_nil]; simp, rfl⟩
  | cons p d ih =>
      intro k v
      by_cases hp : p.1 = k
      · exact ⟨(k, v), by rw [odSet_cons_eq v hp]; simp, rfl⟩
      · rcases ih k v with ⟨kc, hm, hk⟩
        exact ⟨kc, by rw [odSet_cons_ne v hp]; exact List.mem_cons.2 (Or.inr hm), hk⟩

theorem odSet_key_mono {κ α : Type} [DecidableEq κ] (d : List (κ × α)) (k K : κ) (v : α)
    (h : ∃ kc ∈ d, kc.1 = K) : ∃ kc ∈ odSet d k v, kc.1 = K := by
  rcases h with ⟨kc, hm, hk⟩
  have : kc.1 ∈ odKeys (odSet d k v) := (mem_odKeys_odSet d k kc.1 v).2
    (Or.inl (List.mem_map.2 ⟨kc, hm, rfl⟩))
  rcases List.mem_map.1 this with ⟨kc', hm', he⟩
  exact ⟨kc', hm', hk ▸ he⟩

theorem odKeys_filter {κ α : Type} (d : List (κ × α)) (f : κ → Bool) :
    odKeys (d.filter (fun p => f p.1)) = (odKeys d).filter f := by
  induction d with
  | nil => rfl
  | cons p rest ih =>
      by_cases hp : f p.1 = true
      · rw [List.filter_cons, if_pos hp]
        simp only [odKeys_cons]
        rw [ih, List.filter_cons, if_pos hp]
      · rw [List.filter_cons, if_neg hp]
        simp only [odKeys_cons]
        rw [ih, List.filter_cons, if_neg hp]

theorem odPop_cons_eq {κ α : Type} [DecidableEq κ] {p : κ × α} {d : List (κ × α)} {k : κ}
    (h : p.1 = k) : odPop (p :: d) k = some d := by
  show (if p.1 = k then some d else (odPop d k).map (p :: ·)) = some d
  rw [if_pos h]

theorem odPop_cons_ne {κ α : Type} [DecidableEq κ] {p : κ × α} {d : List (κ × α)} {k : κ}
    (h : ¬ p.1 = k) : odPop (p :: d) k = (odPop d k).map (p :: ·) := by
  show (if p.1 = k then some d else (odPop d k).map (p :: ·)) = (odPop d k).map (p :: ·)
  rw [if_neg h]

theorem odPop_some {κ α : Type} [DecidableEq κ] :
    ∀ (d : List (κ × α)) (k : κ) (d' : List (κ × α)), (odKeys d).Nodup →
      odPop d k = some d' →
      k ∈ odKeys d ∧ d' = d.filter (fun p => decide (p.1 ≠ k)) := by
  intro d
  induction d with
  | nil => intro k d' _ h; simp [odPop] at h
  | cons p rest ih =>
      intro k d' hnd h
      have hnd1 : p.1 ∉ odKeys rest := (List.nodup_cons.1 hnd).1
      have hnd2 : (odKeys rest).Nodup := (List.nodup_cons.1 hnd).2
      by_cases hp : p.1 = k
      · rw [odPop_cons_eq hp] at h
        injection h with h
        subst h
        refine ⟨List.mem_cons.2 (Or.inl hp.symm), ?_⟩
        rw [List.filter_cons, if_neg (by simp [hp])]
        refine (List.filter_eq_self.2 ?_).symm
        intro x hx
        simp only [decide_eq_true_eq]
        intro he
        have hxm : x.1 ∈ odKeys rest := List.mem_map.2 ⟨x, hx, rfl⟩
        rw [he, ← hp] at hxm
        exact hnd1 hxm
      · rw [odPop_cons_ne hp] at h
        cases hrec : odPop rest k with
        | none => rw [hrec] at h; simp at h
        | some d₁ =>
            rw [hrec] at h
            simp only [Option.map_some'] at h
            injection h with h
            subst h
            rcases ih k d₁ hnd2 hrec with ⟨hm, he⟩
            refine ⟨List.mem_cons.2 (Or.inr hm), ?_⟩
            rw [List.filter_cons, if_pos (by simp [hp]), he]

theorem popChain_nil {κ α : Type} [DecidableEq κ] (d : List (κ × α)) :
    popChain [] d = some d := rfl

theorem popChain_cons {κ α : Type} [DecidableEq κ] (k : κ) (ks : List κ) (d : List (κ × α)) :
    popChain (k :: ks) d = (odPop d k).bind (fun d1 => popChain ks d1) := rfl

theorem odKeys_filter_ne {κ α : Type} [DecidableEq κ] (d : List (κ × α)) (a : κ) :
    odKeys (d.filter (fun p => decide (p.1 ≠ a))) =
      (odKeys d).filter (fun x => decide (x ≠ a)) :=
  odKeys_filter d (fun x => decide (x ≠ a))

theorem odKeys_filter_not_mem {α : Type} (d : List (Nat × α)) (L : List Nat) :
    odKeys (d.filter (fun p => decide (p.1 ∉ L))) =
      (odKeys d).filter (fun x => decide (x ∉ L)) :=
  odKeys_filter d (fun x => decide (x ∉ L))

theorem popChain_ok {α : Type} :
    ∀ (L : List Nat) (d d' : List (Nat × α)), (odKeys d).Nodup →
      popChain L d = some d' →
      d' = d.filter (fun p => decide (p.1 ∉ L)) ∧ L.Nodup ∧ ∀ k ∈ L, k ∈ odKeys d := by
  intro L
  induction L with
  | nil =>
      intro d d' _ h
      rw [popChain_nil] at h
      injection h with h
      subst h
      refine ⟨?_, List.nodup_nil, by simp⟩
      exact (List.filter_eq_self.2 (by intro x _; simp)).symm
  | cons a as ih =>
      intro d d' hnd h
      rw [popChain_cons] at h
      cases hpop : odPop d a with
      | none => rw [hpop] at h; simp at h
      | some d₁ =>
          rw [hpop, Option.some_bind] at h
          rcases odPop_some d a d₁ hnd hpop with ⟨hmem, hd₁⟩
          have hnd₁ : (odKeys d₁).Nodup := by
            rw [hd₁, odKeys_filter_ne]
            exact List.Nodup.filter _ hnd
          rcases ih d₁ d' hnd₁ h with ⟨hfil, hndas, hsub⟩
          have hanot : a ∉ odKeys d₁ := by
            rw [hd₁, odKeys_filter_ne]
            intro hx
            rcases List.mem_filter.1 hx with ⟨_, hdec⟩
            simp at hdec
          refine ⟨?_, List.nodup_cons.2 ⟨fun hc => hanot (hsub a hc), hndas⟩, ?_⟩
          · rw [hfil, hd₁, List.filter_filter]
            refine (List.filter_congr ?_).symm
            intro x _
            by_cases h1 : x.1 = a <;> by_cases h2 : x.1 ∈ as <;>
              simp [h1, h2, List.mem_cons]
          · intro k hk
            rcases List.mem_cons.1 hk with h' | h'
            · exact h' ▸ hmem
            · have hk' := hsub k h'
              rw [hd₁, odKeys_filter_ne] at hk'
              exact (List.mem_filter.1 hk').1

theorem foldl_min_mem : ∀ (as : List Nat) (a : Nat), as.foldl min a ∈ a :: as := by
  intro as
  induction as with
  | nil => intro a; simp
  | cons b bs ih =>
      intro a
      simp only [List.foldl_cons]
      rcases List.mem_cons.1 (ih (min a b)) with h | h
      · rcases Nat.le_total a b with hab | hab
        · have hm : min a b = a := by omega
          rw [h, hm]
          exact List.mem_cons.2 (Or.inl rfl)
        · have hm : min a b = b := by omega
          rw [h, hm]
          exact List.mem_cons.2 (Or.inr (List.mem_cons.2 (Or.inl rfl)))
      · exact List.mem_cons.2 (Or.inr (List.mem_cons.2 (Or.inr h)))

theorem foldl_min_le : ∀ (as : List Nat) (a : Nat),
    as.foldl min a ≤ a ∧ ∀ k ∈ as, as.foldl min a ≤ k := by
  intro as
  induction as with
  | nil => intro a; exact ⟨Nat.le_refl a, by simp⟩
  | cons b bs ih =>
      intro a
      rcases ih (min a b) with ⟨h1, h2⟩
      simp only [List.foldl_cons]
      refine ⟨Nat.le_trans h1 (Nat.min_le_left a b), ?_⟩
      intro k hk
      rcases List.mem_cons.1 hk with h | h
      · subst h; exact Nat.le_trans h1 (Nat.min_le_right a k)
      · exact h2 k h

theorem listMin_mem (a : Nat) (as : List Nat) : listMin a as ∈ a :: as :=
  foldl_min_mem as a

theorem listMin_le (a : Nat) (as : List Nat) : ∀ k ∈ a :: as, listMin a as ≤ k := by
  intro k hk
  rcases List.mem_cons.1 hk with h | h
  · subst h; exact (foldl_min_le as k).1
  · exact (foldl_min_le as a).2 k h

theorem take_range' : ∀ (n m s : Nat), (List.range' s n).take m = List.range' s (min n m) := by
  intro n
  induction n with
  | zero =>
      intro m s
      have : min 0 m = 0 := by omega
      rw [this]
      simp
  | succ n ih =>
      intro m s
      cases m with
      | zero =>
          have : min (n + 1) 0 = 0 := by omega
          rw [this]
          rfl
      | succ m =>
          rw [List.range'_succ, List.take_succ_cons, ih m (s + 1)]
          have : min (n + 1) (m + 1) = min n m + 1 := by omega
          rw [this, List.range'_succ]

theorem map_fst_zip_take {α β : Type} :
    ∀ (l₁ : List α) (l₂ : List β), (l₁.zip l₂).map Prod.fst = l₁.take l₂.length := by
  intro l₁
  induction l₁ with
  | nil => intro l₂; simp
  | cons a l ih =>
      intro l₂
      cases l₂ with
      | nil => simp
      | cons b l₂ => simp [ih]

theorem length_filter_ne (a : Nat) :
    ∀ (K : List Nat), K.Nodup → a ∈ K →
      (K.filter (fun k => decide (k ≠ a))).length = K.length - 1 := by
  intro K
  induction K with
  | nil => intro _ h; simp at h
  | cons b rest ih =>
      intro hnd hm
      rcases List.nodup_cons.1 hnd with ⟨hb, hrest⟩
      rcases List.mem_cons.1 hm with h | h
      · subst h
        rw [List.filter_cons, if_neg (by simp)]
        rw [List.filter_eq_self.2 (by
          intro x hx
          simp only [decide_eq_true_eq]
          intro he
          exact hb (he ▸ hx))]
        simp
      · have hba : ¬ (b = a) := fun he => hb (he ▸ h)
        rw [List.filter_cons, if_pos (by simp [hba])]
        have hlen := ih hrest h
        have hpos : 1 ≤ rest.length := List.length_pos.2 (by rintro rfl; simp at h)
        simp only [List.length_cons, hlen]
        omega

theorem length_filter_not_mem :
    ∀ (L K : List Nat), K.Nodup → L.Nodup → (∀ k ∈ L, k ∈ K) →
      (K.filter (fun k => decide (k ∉ L))).length = K.length - L.length := by
  intro L
  induction L with
  | nil =>
      intro K _ _ _
      rw [List.filter_eq_self.2 (by intro x _; simp)]
      simp
  | cons a as ih =>
      intro K hK hL hsub
      rcases List.nodup_cons.1 hL with ⟨ha, has⟩
      have hstep : K.filter (fun k => decide (k ∉ a :: as)) =
          (K.filter (fun k => decide (k ≠ a))).filter (fun k => decide (k ∉ as)) := by
        rw [List.filter_filter]
        refine (List.filter_congr ?_).symm
        intro x _
        by_cases h1 : x = a <;> by_cases h2 : x ∈ as <;> simp [h1, h2, List.mem_cons]
      rw [hstep]
      have hK₁ : (K.filter (fun k => decide (k ≠ a))).Nodup := List.Nodup.filter _ hK
      have hsub₁ : ∀ k ∈ as, k ∈ K.filter (fun k => decide (k ≠ a)) := by
        intro k hk
        refine List.mem_filter.2 ⟨hsub k (List.mem_cons.2 (Or.inr hk)), ?_⟩
        simp only [decide_eq_true_eq]
        intro he
        exact ha (he ▸ hk)
      rw [ih _ hK₁ has hsub₁, length_filter_ne a K hK (hsub a (List.mem_cons.2 (Or.inl rfl)))]
      simp only [List.length_cons]
      omega

theorem nodup_subset_length_le {L K : List Nat} (hL : L.Nodup) (hK : K.Nodup)
    (hsub : ∀ k ∈ L, k ∈ K) : L.length ≤ K.length := by
  have h1 : L.toFinset.card = L.length := List.toFinset_card_of_nodup hL
  have h2 : K.toFinset.card = K.length := List.toFinset_card_of_nodup hK
  rw [← h1, ← h2]
  apply Finset.card_le_card
  intro x hx
  exact List.mem_toFinset.2 (hsub x (List.mem_toFinset.1 hx))

theorem mapM_except_ok {α β ε : Type} (g : α → Except ε β) :
    ∀ (l : List α) (l' : List β), l.mapM g = Except.ok l' →
      l'.length = l.length ∧
      ∀ j x, l.get? j = some x → ∃ y, g x = Except.ok y ∧ l'.get? j = some y := by
  intro l
  induction l with
  | nil =>
      intro l' h
      rw [List.mapM_nil, except_pure_eq] at h
      injection h with h
      subst h
      exact ⟨rfl, by intro j x hx; simp at hx⟩
  | cons a l ih =>
      intro l' h
      rw [List.mapM_cons] at h
      cases hg : g a with
      | error e =>
          rw [hg, except_error_bind] at h
          exact Except.noConfusion h
      | ok y =>
          rw [hg, except_ok_bind] at h
          cases hm : l.mapM g with
          | error e =>
              rw [hm, except_error_bind] at h
              exact Except.noConfusion h
          | ok ys =>
              rw [hm, except_ok_bind, except_pure_eq] at h
              injection h with h
              subst h
              rcases ih ys hm with ⟨hlen, hget⟩
              refine ⟨by simp [hlen], ?_⟩
              intro j x hx
              cases j with
              | zero =>
                  simp only [List.get?_cons_zero] at hx ⊢
                  injection hx with hx
                  exact ⟨y, hx ▸ hg, rfl⟩
              | succ j =>
                  simp only [List.get?_cons_succ] at hx ⊢
                  exact hget j x hx

end Cellbase

namespace Cellbase

/-! ## Claim instances -/

/-- C2: on the table holding five data rows at indices 2..6 with ids
0..4, deleting row index 3 returns 1 deleted row and `query()` afterwards
returns exactly four rows at indices 2,3,4,5 with ids 0,2,3,4: the row
originally at index 2 is unchanged and the rows originally at 4..6 are
shifted down by one with their cell values preserved in order. -/
theorem delete_compaction_c2 :
    ∃ t4, runOps tableT0 (insOps 5) = .ok tableT5 ∧
      localQuery tableT5 Option.none = .ok
        [queryRec 2 0 "simple0", queryRec 3 1 "simple1", queryRec 4 2 "simple2",
         queryRec 5 3 "simple3", queryRec 6 4 "simple4"] ∧
      localDelete tableT5 (some [(COL_ROW_IDX, Cond.lit (Value.int 3))]) = .ok (t4, some 1) ∧
      localQuery t4 Option.none = .ok
        [queryRec 2 0 "simple0", queryRec 3 2 "simple2", queryRec 4 3 "simple3",
         queryRec 5 4 "simple4"] := by
  refine ⟨_, rfl, rfl, rfl, rfl⟩

/-- C3 (counter-evidence): with the reserved row-index key present in
`data` (targeting row 2) and an unrelated non-empty `where` of `{id: 1}`,
`update` follows the `where` argument, not the row-index value: row 3 (the
`id = 1` row) is rewritten to `{id: 99, name: "z"}` while row 2 — the row
the claim says is the sole target — is untouched. -/
theorem update_ignores_data_rowidx_c3 :
    ∃ t', runOps tableT0 (insOps 2) = .ok tableT2 ∧
      localUpdate tableT2
        [(COL_ROW_IDX, Value.int 2), ("id", Value.int 99), ("name", Value.str "z")]
        (some [("id", Cond.lit (Value.int 1))]) = .ok (t', 1) ∧
      localQuery t' Option.none = .ok [queryRec 2 0 "simple0", queryRec 3 99 "z"] ∧
      odLookup t'.rows 2 = odLookup tableT2.rows 2 := by
  refine ⟨_, rfl, rfl, rfl, rfl⟩

/-- C4: a delete whose condition matches no rows leaves the table state —
rows, cols, worksheet cells, and hence the size — exactly unchanged; the
local backend however returns Python `None` (a bare `return`), not the
documented 0. -/
theorem delete_no_match_c4 (t : LocalTable) (w : Option Where)
    (h : rowAndColWhereRC t.rows t.cols w = Except.ok []) :
    localDelete t w = Except.ok (t, Option.none) := by
  unfold localDelete
  rw [h]
  rfl

/-- Witness for C4 at a concrete input: `delete({id: 99})` on the
one-row table matches nothing, changes nothing, and returns `None`. -/
theorem delete_no_match_c4_witness :
    rowAndColWhereRC tableT1.rows tableT1.cols (some [("id", Cond.lit (Value.int 99))]) =
      Except.ok [] ∧
    localDelete tableT1 (some [("id", Cond.lit (Value.int 99))]) =
      Except.ok (tableT1, Option.none) :=
  ⟨rfl, delete_no_match_c4 tableT1 (some [("id", Cond.lit (Value.int 99))]) rfl⟩

/-- C5 (counter-evidence): `format` with `where=None` never returns 0 —
for every formatter (empty or not) it raises `AttributeError`, because it
calls `formatter.is_empty()` and `CellFormatter` defines no such method:
the lookup falls through to `__getattr__`, which rejects names outside
`attrs()`.  No cell is touched, but the documented return of 0 never
happens. -/
theorem format_attribute_error_c5 (t : LocalTable) (f : LocalCellFormatter)
    (sel : Option (List String)) :
    localFormat t f Option.none sel = Except.error PyErr.attributeError := rfl

/-- C6 (counter-evidence): `_row_idxs_where` is not duplicate-free for
literal clauses.  On the two-row table, `{row_idx: 2, id: 0}` yields
`[2, 2]` — the row-index clause appends 2, then the literal `id` scan
appends it again because the duplicate guard `cell.row not in row_idxs`
binds only to the callable branch of the conditional expression — and
`query` consequently returns the matching record twice. -/
theorem where_union_duplicates_c6 :
    rowIdxsWhereRC tableT2.rows tableT2.cols
        (some [(COL_ROW_IDX, Cond.lit (Value.int 2)), ("id", Cond.lit (Value.int 0))]) =
      .ok [2, 2] ∧
    localQuery tableT2
        (some [(COL_ROW_IDX, Cond.lit (Value.int 2)), ("id", Cond.lit (Value.int 0))]) =
      .ok [queryRec 2 0 "simple0", queryRec 2 0 "simple0"] := ⟨rfl, rfl⟩

/-- C7: on both backends, `traverse` called with a non-callable `fn`
fails with `TypeError` as its very first action — before the where
conditions are evaluated and before any cell is read or written, so the
table and worksheet are left completely unchanged. -/
theorem traverse_non_callable_c7 :
    (∀ (t : LocalTable) (v : Value) (w : Option Where) (sel : Option (List String)),
      localTraverse t (.notCallable v) w sel = Except.error PyErr.typeError) ∧
    (∀ (gt : GoogleTable) (v : Value) (w : Option Where) (sel : Option (List String)),
      googleTraverse gt (.notCallable v) w sel = Except.error PyErr.typeError) :=
  ⟨fun _ _ _ _ => rfl, fun _ _ _ _ => rfl⟩


theorem updateRowTail_ok (col_ids : List Cell) (data : List (String × Value)) :
    ∀ (row row' : List (String × Cell)),
      updateRowTail col_ids data row = Except.ok row' →
      row'.head? = row.head? ∧ row'.length = row.length ∧
      ∀ j nm c, row.get? (j + 1) = some (nm, c) →
        ∃ cid v, col_ids.get? (c.col_idx - 1) = some cid ∧
          lookupByHeaderValue data cid.value = some v ∧
          row'.get? (j + 1) = some (nm, { c with value := v }) := by
  intro row row' h
  cases row with
  | nil =>
      rw [show updateRowTail col_ids data [] = Except.ok [] from rfl] at h
      injection h with h
      subst h
      exact ⟨rfl, rfl, by intro j nm c hx; simp at hx⟩
  | cons first rest =>
      rw [show updateRowTail col_ids data (first :: rest) =
          (rest.mapM (updCellFn col_ids data)) >>= (fun rest' => Except.ok (first :: rest'))
          from rfl] at h
      cases hm : rest.mapM (updCellFn col_ids data) with
      | error e => rw [hm, except_error_bind] at h; exact Except.noConfusion h
      | ok rest' =>
          rw [hm, except_ok_bind] at h
          injection h with h
          subst h
          rcases mapM_except_ok (updCellFn col_ids data) rest rest' hm with ⟨hlen, hget⟩
          refine ⟨rfl, by simp [hlen], ?_⟩
          intro j nm c hx
          simp only [List.get?_cons_succ] at hx ⊢
          rcases hget j (nm, c) hx with ⟨y, hy, hy'⟩
          simp only [updCellFn] at hy
          split at hy
          next hcid => exact Except.noConfusion hy
          next cid hcid =>
            cases hv : lookupByHeaderValue data cid.value with
            | none => rw [hv] at hy; exact Except.noConfusion hy
            | some v =>
                rw [hv] at hy
                injection hy with hy
                refine ⟨cid, v, hcid, hv, ?_⟩
                rw [← hy] at hy'
                exact hy'

/-- C10: when `update` is called with `where=None` and the reserved
row-index key in `data`, only the targeted row changes and within it only
the cells from the second schema column onward are written with the
values from `data`; the cell in the first schema column keeps its
previous value (`list(row.values())[1:]` skips it), and all other rows,
the column store and the worksheet cells are untouched. -/
theorem update_skips_first_column_c10 (t : LocalTable) (data : List (String × Value))
    (t' : LocalTable) (cnt : Nat)
    (h : localUpdate t data Option.none = Except.ok (t', cnt)) :
    ∃ n row row', odLookup data COL_ROW_IDX = some (Value.int n) ∧
      odLookup t.rows n.toNat = some row ∧
      updateRowTail t.col_ids data row = Except.ok row' ∧
      t'.rows = odSet t.rows n.toNat row' ∧
      t'.cols = t.cols ∧ t'.wsCells = t.wsCells ∧ t'.col_ids = t.col_ids ∧ cnt = 1 ∧
      row'.head? = row.head? ∧ row'.length = row.length ∧
      (∀ j nm c, row.get? (j + 1) = some (nm, c) →
        ∃ cid v, t.col_ids.get? (c.col_idx - 1) = some cid ∧
          lookupByHeaderValue data cid.value = some v ∧
          row'.get? (j + 1) = some (nm, { c with value := v })) ∧
      (∀ k, k ≠ n.toNat → odLookup t'.rows k = odLookup t.rows k) := by
  cases hl : odLookup data COL_ROW_IDX with
  | none =>
      simp only [localUpdate, hl] at h
      exact Except.noConfusion h
  | some rv =>
      cases rv with
      | int n =>
          simp only [localUpdate, hl] at h
          by_cases hneg : n < 0
          · rw [if_pos hneg] at h; exact Except.noConfusion h
          · rw [if_neg hneg] at h
            cases hrow : odLookup t.rows n.toNat with
            | none => rw [hrow] at h; exact Except.noConfusion h
            | some row =>
                simp only [hrow] at h
                cases htail : updateRowTail t.col_ids data row with
                | error e => rw [htail, except_error_bind] at h; exact Except.noConfusion h
                | ok row' =>
                    rw [htail, except_ok_bind] at h
                    injection h with h
                    injection h with h1 h2
                    subst h1
                    subst h2
                    rcases updateRowTail_ok t.col_ids data row row' htail with ⟨hh, hlen, hcells⟩
                    refine ⟨n, row, row', rfl, hrow, htail, rfl, rfl, rfl, rfl, rfl,
                      hh, hlen, hcells, ?_⟩
                    intro k hk
                    exact odLookup_odSet_ne t.rows n.toNat k row' (hk)
      | str sv =>
          simp only [localUpdate, hl] at h
          exact Except.noConfusion h
      | none =>
          simp only [localUpdate, hl] at h
          exact Except.noConfusion h

/-- Witness for C10 at a concrete input: on the two-row table,
`update({row_idx: 2, id: 99, name: "z"}, None)` rewrites only row 2 and
leaves its first-column cell (the `id` value 0) unchanged even though
`data` carries `id: 99`. -/
theorem update_skips_first_column_c10_witness :
    ∃ n row row', odLookup dataUpd10 COL_ROW_IDX = some (Value.int n) ∧
      odLookup tableT2.rows n.toNat = some row ∧
      updateRowTail tableT2.col_ids dataUpd10 row = Except.ok row' ∧
      updRes10.1.rows = odSet tableT2.rows n.toNat row' ∧
      updRes10.1.cols = tableT2.cols ∧ updRes10.1.wsCells = tableT2.wsCells ∧
      updRes10.1.col_ids = tableT2.col_ids ∧ updRes10.2 = 1 ∧
      row'.head? = row.head? ∧ row'.length = row.length ∧
      (∀ j nm c, row.get? (j + 1) = some (nm, c) →
        ∃ cid v, tableT2.col_ids.get? (c.col_idx - 1) = some cid ∧
          lookupByHeaderValue dataUpd10 cid.value = some v ∧
          row'.get? (j + 1) = some (nm, { c with value := v })) ∧
      (∀ k, k ≠ n.toNat → odLookup updRes10.1.rows k = odLookup tableT2.rows k) :=
  update_skips_first_column_c10 tableT2 dataUpd10 updRes10.1 updRes10.2 rfl


theorem foldl_max_le_init :
    ∀ (ws : List ((Nat × Nat) × Cell)) (i : Nat),
      i ≤ ws.foldl (fun m kc => max m kc.1.1) i := by
  intro ws
  induction ws with
  | nil => intro i; exact Nat.le_refl i
  | cons kc rest ih =>
      intro i
      simp only [List.foldl_cons]
      exact Nat.le_trans (Nat.le_max_left i kc.1.1) (ih (max i kc.1.1))

theorem foldl_max_mem_le :
    ∀ (ws : List ((Nat × Nat) × Cell)) (i : Nat) (kc : (Nat × Nat) × Cell), kc ∈ ws →
      kc.1.1 ≤ ws.foldl (fun m kc => max m kc.1.1) i := by
  intro ws
  induction ws with
  | nil => intro i kc h; simp at h
  | cons kc0 rest ih =>
      intro i kc h
      simp only [List.foldl_cons]
      rcases List.mem_cons.1 h with h' | h'
      · subst h'
        exact Nat.le_trans (Nat.le_max_right i kc.1.1) (foldl_max_le_init rest (max i kc.1.1))
      · exact ih (max i kc0.1.1) kc h'

theorem foldl_max_cases :
    ∀ (ws : List ((Nat × Nat) × Cell)) (i : Nat),
      ws.foldl (fun m kc => max m kc.1.1) i = i ∨
      ∃ kc ∈ ws, kc.1.1 = ws.foldl (fun m kc => max m kc.1.1) i := by
  intro ws
  induction ws with
  | nil => intro i; left; rfl
  | cons kc0 rest ih =>
      intro i
      simp only [List.foldl_cons]
      rcases ih (max i kc0.1.1) with h | ⟨kc, hm, hk⟩
      · rcases Nat.le_total i kc0.1.1 with hle | hle
        · right
          refine ⟨kc0, List.mem_cons.2 (Or.inl rfl), ?_⟩
          rw [h]; omega
        · left
          rw [h]; omega
      · right
        exact ⟨kc, List.mem_cons.2 (Or.inr hm), hk⟩

theorem appendCells_mem :
    ∀ (vals : List (Nat × Value)) (ws : List ((Nat × Nat) × Cell)) (newRow : Nat)
      (kc : (Nat × Nat) × Cell), kc ∈ appendCells ws newRow vals →
      kc ∈ ws ∨ kc.1.1 = newRow := by
  intro vals
  induction vals with
  | nil => intro ws r kc h; left; exact h
  | cons cv rest ih =>
      intro ws r kc h
      have h' : kc ∈ appendCells (odSet ws (r, cv.1)
          { row := r, col_idx := cv.1, value := cv.2 }) r rest := h
      rcases ih _ r kc h' with h2 | h2
      · rcases mem_odSet_src ws (r, cv.1) _ kc h2 with h3 | h3
        · left; exact h3
        · right; rw [h3]
      · right; exact h2

theorem appendCells_key_mem :
    ∀ (vals : List (Nat × Value)) (ws : List ((Nat × Nat) × Cell)) (newRow : Nat),
      vals ≠ [] → ∃ kc ∈ appendCells ws newRow vals, kc.1.1 = newRow := by
  intro vals
  induction vals with
  | nil => intro ws r h; exact absurd rfl h
  | cons cv rest ih =>
      intro ws r _
      by_cases hrest : rest = []
      · subst hrest
        rcases odSet_key_mem ws (r, cv.1) { row := r, col_idx := cv.1, value := cv.2 }
          with ⟨kc, hm, hk⟩
        exact ⟨kc, hm, by rw [hk]⟩
      · exact ih _ r hrest

/-- C8: inserting `{id: 1, name: "a"}` into the freshly created table
returns row index 2 and a subsequent unconditioned `query()` returns
exactly that one record; in general, a successful insert on a
well-formed table returns `lastRowIndex + 1 = size + 2` (the worksheet
extent is `size + 1`, the append lands one row below it, and the new
index is read back as the new `worksheet.max_row`). -/
theorem insert_roundtrip_c8 :
    (∀ (t : LocalTable) (data : List (String × Value)) (t' : LocalTable) (idx : Nat),
      invB t = true → localInsert t data = Except.ok (t', idx) → idx = t.size + 2) ∧
    (∃ t1, localInsert tableT0 data8 = Except.ok (t1, 2) ∧
      localQuery t1 Option.none = Except.ok [queryRec 2 1 "a"]) := by
  constructor
  · intro t data t' idx hinv h
    simp only [invB, Bool.and_eq_true, decide_eq_true_eq] at hinv
    have hmax : wsMaxRow t = t.rows.length + 1 := hinv.1.1.1.2
    have hcne : t.col_ids ≠ [] := hinv.1.2
    cases hvals : t.col_ids.mapM (insertValFn data) with
    | error e =>
        simp only [localInsert, hvals, except_error_bind] at h
        exact Except.noConfusion h
    | ok vals =>
        simp only [localInsert, hvals, except_ok_bind] at h
        rcases mapM_except_ok (insertValFn data) t.col_ids vals hvals with ⟨hvlen, _⟩
        have hvne : vals ≠ [] := by
          intro hv
          subst hv
          simp only [List.length_nil] at hvlen
          exact hcne (List.eq_nil_of_length_eq_zero hvlen.symm)
        generalize hws : appendCells t.wsCells (wsMaxRow t + 1) vals = ws1 at h
        cases hrc : t.col_ids.foldlM
            (insertRegStep ws1 (wsMaxRow { t with wsCells := ws1 }))
            (([] : List (String × Cell)), t.cols) with
        | error e => rw [hrc, except_error_bind] at h; exact Except.noConfusion h
        | ok rc =>
            rw [hrc, except_ok_bind] at h
            injection h with h
            injection h with h1 h2
            subst h2
            -- idx = wsMaxRow of the appended worksheet; compute it
            have hwt : wsMaxRow t = t.wsCells.foldl (fun m kc => max m kc.1.1) 1 := rfl
            have hw1 : wsMaxRow { t with wsCells := ws1 } =
                ws1.foldl (fun m kc => max m kc.1.1) 1 := rfl
            have hub : ∀ kc ∈ ws1, kc.1.1 ≤ wsMaxRow t + 1 := by
              intro kc hm
              rcases appendCells_mem vals t.wsCells (wsMaxRow t + 1) kc (hws ▸ hm)
                with h' | h'
              · have := foldl_max_mem_le t.wsCells 1 kc h'
                omega
              · omega
            have hex : ∃ kc ∈ ws1, kc.1.1 = wsMaxRow t + 1 :=
              hws ▸ appendCells_key_mem vals t.wsCells (wsMaxRow t + 1) hvne
            rcases hex with ⟨kc0, hm0, hk0⟩
            have hge : wsMaxRow t + 1 ≤ wsMaxRow { t with wsCells := ws1 } := by
              have := foldl_max_mem_le ws1 1 kc0 hm0
              omega
            have hle : wsMaxRow { t with wsCells := ws1 } ≤ wsMaxRow t + 1 := by
              rcases foldl_max_cases ws1 1 with hc | ⟨kc, hm, hk⟩
              · show ws1.foldl (fun m kc => max m kc.1.1) 1 ≤ wsMaxRow t + 1
                omega
              · show ws1.foldl (fun m kc => max m kc.1.1) 1 ≤ wsMaxRow t + 1
                rw [← hk]
                exact hub kc hm
            have : wsMaxRow { t with wsCells := ws1 } = wsMaxRow t + 1 :=
              Nat.le_antisymm hle hge
            rw [this, hmax]
            rfl
  · exact ⟨_, rfl, rfl⟩

/-- Witness for C8: the fresh two-column table is well-formed and the
first insert returns row index 2 = size + 2. -/
theorem insert_roundtrip_c8_witness :
    invB tableT0 = true ∧ (2 : Nat) = tableT0.size + 2 :=
  ⟨rfl, insert_roundtrip_c8.1 tableT0 (dataN 0 "simple0") tableT1 2 rfl rfl⟩


theorem foldlM_except_nil {σ α : Type} (f : σ → α → Except PyErr σ) (init : σ) :
    ([] : List α).foldlM f init = Except.ok init := rfl

theorem foldlM_except_cons {σ α : Type} (f : σ → α → Except PyErr σ) (init : σ)
    (a : α) (as : List α) :
    (a :: as).foldlM f init = f init a >>= fun s2 => as.foldlM f s2 := rfl

theorem colScan_sub (cond : Cond) :
    ∀ (cells : List Cell) (acc : List Nat) (r : Nat), r ∈ acc →
      r ∈ colScan cond cells acc := by
  intro cells
  induction cells with
  | nil => intro acc r h; exact h
  | cons c cs ih =>
      intro acc r h
      have hstep : r ∈ colScanStep cond acc c := by
        unfold colScanStep
        split
        · exact List.mem_append.2 (Or.inl h)
        · exact h
      exact ih (colScanStep cond acc c) r hstep

theorem colScan_hit (cond : Cond) :
    ∀ (cells : List Cell) (acc : List Nat) (r : Nat) (c : Cell), c ∈ cells →
      c.row = r → condTest cond c.value = true → r ∈ colScan cond cells acc := by
  intro cells
  induction cells with
  | nil => intro acc r c h; simp at h
  | cons c0 cs ih =>
      intro acc r c hm hr htest
      rcases List.mem_cons.1 hm with h | h
      · subst h
        have hstep : r ∈ colScanStep cond acc c := by
          unfold colScanStep
          cases cond with
          | lit v =>
              simp only [condTest] at htest
              rw [if_pos htest]
              rw [← hr]
              exact List.mem_append.2 (Or.inr (List.mem_cons.2 (Or.inl rfl)))
          | pred q =>
              simp only [condTest] at htest
              by_cases hin : c.row ∈ acc
              · rw [if_neg (by simp [hin])]
                exact hr ▸ hin
              · rw [if_pos (by simp [hin, htest])]
                rw [← hr]
                exact List.mem_append.2 (Or.inr (List.mem_cons.2 (Or.inl rfl)))
        exact colScan_sub cond cs (colScanStep cond acc c) r hstep
      · exact ih (colScanStep cond acc c0) r c h hr htest

theorem whereClauseStep_sub (cols : Cols) (acc : List Nat) (p : String × Cond)
    (acc' : List Nat) (h : whereClauseStep cols acc p = Except.ok acc') :
    ∀ r ∈ acc, r ∈ acc' := by
  intro r hr
  unfold whereClauseStep at h
  split at h
  · injection h with h; subst h; exact hr
  · cases hc : odLookup cols p.1 with
    | none =>
        simp only [hc] at h
        exact Except.noConfusion h
    | some cells =>
        simp only [hc] at h
        injection h with h
        subst h
        exact colScan_sub p.2 cells acc r hr

theorem whereFold_sub (cols : Cols) :
    ∀ (w : Where) (acc l : List Nat),
      w.foldlM (whereClauseStep cols) acc = Except.ok l → ∀ r ∈ acc, r ∈ l := by
  intro w
  induction w with
  | nil =>
      intro acc l h r hr
      rw [foldlM_except_nil] at h
      injection h with h
      subst h
      exact hr
  | cons p w ih =>
      intro acc l h r hr
      rw [foldlM_except_cons] at h
      cases hstep : whereClauseStep cols acc p with
      | error e => rw [hstep, except_error_bind] at h; exact Except.noConfusion h
      | ok acc1 =>
          rw [hstep, except_ok_bind] at h
          exact ih acc1 l h r (whereClauseStep_sub cols acc p acc1 hstep r hr)

theorem whereFold_hit (cols : Cols) :
    ∀ (w : Where) (acc l : List Nat) (nm : String) (cond : Cond) (r : Nat),
      (nm, cond) ∈ w → nm ≠ COL_ROW_IDX →
      (∃ cs c, odLookup cols nm = some cs ∧ c ∈ cs ∧ c.row = r ∧
        condTest cond c.value = true) →
      w.foldlM (whereClauseStep cols) acc = Except.ok l → r ∈ l := by
  intro w
  induction w with
  | nil => intro acc l nm cond r h; simp at h
  | cons p w ih =>
      intro acc l nm cond r hmem hnm htrig h
      rw [foldlM_except_cons] at h
      cases hstep : whereClauseStep cols acc p with
      | error e => rw [hstep, except_error_bind] at h; exact Except.noConfusion h
      | ok acc1 =>
          rw [hstep, except_ok_bind] at h
          rcases List.mem_cons.1 hmem with hp | hp
          · rcases htrig with ⟨cs, c, hcs, hc, hr, htest⟩
            have hacc1 : r ∈ acc1 := by
              rw [← hp] at hstep
              unfold whereClauseStep at hstep
              rw [if_neg hnm] at hstep
              simp only [hcs] at hstep
              injection hstep with hstep
              subst hstep
              exact colScan_hit cond cs acc r c hc hr htest
            exact whereFold_sub cols w acc1 l h r hacc1
          · exact ih acc1 l nm cond r hp hnm htrig h

theorem rowIdxBase_hit_pred (rows : Rows) (w : Where) (p : Value → Bool) (r : Nat)
    (hnd : (w.map Prod.fst).Nodup) (hmem : (COL_ROW_IDX, Cond.pred p) ∈ w)
    (hkey : r ∈ odKeys rows) (htest : p (.int (Int.ofNat r)) = true) :
    ∃ b, rowIdxBase rows w = Except.ok b ∧ r ∈ b := by
  have hl : odLookup w COL_ROW_IDX = some (Cond.pred p) :=
    odLookup_eq_some_of_mem_nodup w COL_ROW_IDX (Cond.pred p) hnd hmem
  simp only [rowIdxBase, hl]
  exact ⟨_, rfl, List.mem_filter.2 ⟨hkey, htest⟩⟩

theorem rowIdxBase_hit_lit (rows : Rows) (w : Where) (v : Value) (r : Nat)
    (hnd : (w.map Prod.fst).Nodup) (hmem : (COL_ROW_IDX, Cond.lit v) ∈ w)
    (hkey : r ∈ odKeys rows) (htest : pyToInt v = Except.ok (Int.ofNat r)) :
    ∃ b, rowIdxBase rows w = Except.ok b ∧ r ∈ b := by
  have hl : odLookup w COL_ROW_IDX = some (Cond.lit v) :=
    odLookup_eq_some_of_mem_nodup w COL_ROW_IDX (Cond.lit v) hnd hmem
  simp only [rowIdxBase, hl]
  rw [htest, except_ok_bind]
  refine ⟨_, rfl, ?_⟩
  rw [if_pos ⟨Int.ofNat_nonneg r, by simpa using hkey⟩]
  simp

theorem colNameStep_ok (rows : Rows) (row_idx : Nat) (acc : List String)
    (p : String × Cond) (acc' : List String)
    (h : colNameStep rows row_idx acc p = Except.ok acc') :
    (acc' = acc ∧ ¬ clauseHolds rows row_idx p.1 p.2) ∨
    (acc' = acc ++ [p.1] ∧ clauseHolds rows row_idx p.1 p.2) := by
  unfold colNameStep at h
  by_cases hpc : p.1 = COL_ROW_IDX
  · rw [if_pos hpc] at h
    cases hcond : p.2 with
    | pred q =>
        simp only [hcond] at h
        injection h with h
        subst h
        by_cases hq : q (.int (Int.ofNat row_idx)) = true
        · right
          rw [if_pos hq]
          refine ⟨rfl, ?_⟩
          simp only [clauseHolds, hpc, hcond, if_pos]
          simpa using hq
        · left
          rw [if_neg hq]
          refine ⟨rfl, ?_⟩
          simp only [clauseHolds, hpc, hcond, if_pos]
          intro hcontra
          exact hq (by simpa using hcontra)
    | lit v =>
        simp only [hcond] at h
        cases hpy : pyToInt v with
        | error e => rw [hpy, except_error_bind] at h; exact Except.noConfusion h
        | ok ri =>
            rw [hpy, except_ok_bind] at h
            injection h with h
            subst h
            by_cases hri : (Int.ofNat row_idx) = ri
            · right
              rw [if_pos hri]
              refine ⟨rfl, ?_⟩
              simp only [clauseHolds, hpc, hcond, if_pos]
              rw [hpy, hri]
            · left
              rw [if_neg hri]
              refine ⟨rfl, ?_⟩
              simp only [clauseHolds, hpc, hcond, if_pos]
              intro hcontra
              rw [hpy] at hcontra
              injection hcontra with hcontra
              exact hri hcontra.symm
  · rw [if_neg hpc] at h
    cases hrow : odLookup rows row_idx with
    | none =>
        simp only [hrow] at h
        exact Except.noConfusion h
    | some row =>
        simp only [hrow] at h
        cases hcell : odLookup row p.1 with
        | none =>
            simp only [hcell] at h
            exact Except.noConfusion h
        | some c =>
            simp only [hcell] at h
            injection h with h
            subst h
            by_cases htest : condTest p.2 c.value = true
            · right
              rw [if_pos htest]
              refine ⟨rfl, ?_⟩
              simp only [clauseHolds, if_neg hpc]
              exact ⟨row, c, hrow, hcell, htest⟩
            · left
              rw [if_neg htest]
              refine ⟨rfl, ?_⟩
              simp only [clauseHolds, if_neg hpc]
              rintro ⟨row2, c2, hrow2, hcell2, htest2⟩
              rw [hrow] at hrow2
              injection hrow2 with hrow2
              subst hrow2
              rw [hcell] at hcell2
              injection hcell2 with hcell2
              subst hcell2
              exact htest htest2

theorem colNamesFold_all (rows : Rows) (row_idx : Nat) :
    ∀ (w : Where) (acc names : List String),
      w.foldlM (colNameStep rows row_idx) acc = Except.ok names →
      names.length ≤ acc.length + w.length ∧
      (names.length = acc.length + w.length →
        ∀ p ∈ w, clauseHolds rows row_idx p.1 p.2) := by
  intro w
  induction w with
  | nil =>
      intro acc names h
      rw [foldlM_except_nil] at h
      injection h with h
      subst h
      exact ⟨by simp, by intro _ p hp; simp at hp⟩
  | cons p w ih =>
      intro acc names h
      rw [foldlM_except_cons] at h
      cases hstep : colNameStep rows row_idx acc p with
      | error e => rw [hstep, except_error_bind] at h; exact Except.noConfusion h
      | ok acc1 =>
          rw [hstep, except_ok_bind] at h
          rcases ih acc1 names h with ⟨hb, heq⟩
          rcases colNameStep_ok rows row_idx acc p acc1 hstep with ⟨ha, hnot⟩ | ⟨ha, hyes⟩
          · subst ha
            constructor
            · simp only [List.length_cons]; omega
            · intro hlen
              exfalso
              simp only [List.length_cons] at hlen
              omega
          · subst ha
            constructor
            · simp only [List.length_append, List.length_cons, List.length_nil] at hb ⊢
              omega
            · intro hlen p2 hp2
              rcases List.mem_cons.1 hp2 with hp2 | hp2
              · subst hp2; exact hyes
              · refine heq ?_ p2 hp2
                simp only [List.length_append, List.length_cons, List.length_nil] at hlen ⊢
                omega

theorem conjFold_mem (rows : Rows) (cols : Cols) (w : Where) :
    ∀ (rid acc l : List Nat) (r : Nat),
      rid.foldlM (conjStep rows cols w) acc = Except.ok l → r ∈ l →
      r ∈ acc ∨ ∃ names, colNamesWhereRC rows cols r (some w) = Except.ok names ∧
        names.length = w.length := by
  intro rid
  induction rid with
  | nil =>
      intro acc l r h hr
      rw [foldlM_except_nil] at h
      injection h with h
      subst h
      left; exact hr
  | cons r0 rid ih =>
      intro acc l r h hr
      rw [foldlM_except_cons] at h
      cases hstep : conjStep rows cols w acc r0 with
      | error e => rw [hstep, except_error_bind] at h; exact Except.noConfusion h
      | ok acc1 =>
          rw [hstep, except_ok_bind] at h
          rcases ih acc1 l r h hr with hacc1 | hex
          · unfold conjStep at hstep
            cases hnames : colNamesWhereRC rows cols r0 (some w) with
            | error e => rw [hnames, except_error_bind] at hstep; exact Except.noConfusion hstep
            | ok names0 =>
                rw [hnames, except_ok_bind] at hstep
                injection hstep with hstep
                subst hstep
                by_cases hlen : names0.length = w.length
                · rw [if_pos hlen] at hacc1
                  rcases List.mem_append.1 hacc1 with hacc | hr0
                  · left; exact hacc
                  · right
                    have : r = r0 := by simpa using hr0
                    subst this
                    exact ⟨names0, hnames, hlen⟩
                · rw [if_neg hlen] at hacc1
                  left; exact hacc1
          · right; exact hex

/-- C9: `traverse` (and therefore `update` with a non-`None` `where`)
targets rows by DISJUNCTION.  First part: any row on which one single
clause of `where` fires — the reserved row-index clause on a table row it
accepts, or a column clause on a cell of that column — is in the
`_row_idxs_where` list that `traverse` iterates.  Second part: `query`
and `delete` go through `_row_and_col_where`, and every row index it
returns satisfies ALL clauses of `where`.  Third part, concretely: with
`where = {id: 0, name: "simple1"}` on the two-row table, row 2 satisfies
only the `id` clause and row 3 only the `name` clause, yet `traverse`
visits and mutates both rows (count 2) and `update` rewrites both rows
(count 2), while `query` returns no row at all. -/
theorem traverse_disjunction_c9 :
    (∀ (rows : Rows) (cols : Cols) (w : Where) (nm : String) (cond : Cond) (r : Nat)
       (l : List Nat),
       (nm, cond) ∈ w → (w.map Prod.fst).Nodup → clauseTrigger rows cols nm cond r →
       rowIdxsWhereRC rows cols (some w) = Except.ok l → r ∈ l) ∧
    (∀ (rows : Rows) (cols : Cols) (w : Where) (l : List Nat) (r : Nat),
       rowAndColWhereRC rows cols (some w) = Except.ok l → r ∈ l →
       ∀ p ∈ w, clauseHolds rows r p.1 p.2) ∧
    (rowIdxsWhereRC tableT2.rows tableT2.cols (some where9) = Except.ok [2, 3] ∧
     (∃ t', localTraverse tableT2 fn9 (some where9) Option.none = Except.ok (t', 2) ∧
        localQuery t' Option.none = Except.ok
          [[(COL_ROW_IDX, Value.int 2), ("id", Value.str "X"), ("name", Value.str "X")],
           [(COL_ROW_IDX, Value.int 3), ("id", Value.str "X"), ("name", Value.str "X")]]) ∧
     localQuery tableT2 (some where9) = Except.ok [] ∧
     (∃ t2, localUpdate tableT2 data9 (some where9) = Except.ok (t2, 2) ∧
        localQuery t2 Option.none = Except.ok
          [queryRec 2 7 "y", queryRec 3 7 "y"])) := by
  refine ⟨?_, ?_, rfl, ⟨_, rfl, rfl⟩, rfl, ⟨_, rfl, rfl⟩⟩
  · intro rows cols w nm cond r l hmem hnd htrig h
    simp only [rowIdxsWhereRC] at h
    by_cases hnm : nm = COL_ROW_IDX
    · subst hnm
      unfold clauseTrigger at htrig
      rw [if_pos rfl] at htrig
      cases cond with
      | pred q =>
          have ht2 : q (.int (Int.ofNat r)) = true := htrig.2
          rcases rowIdxBase_hit_pred rows w q r hnd hmem htrig.1 ht2 with ⟨b, hb, hrb⟩
          rw [hb, except_ok_bind] at h
          exact whereFold_sub cols w b l h r hrb
      | lit v =>
          have ht2 : pyToInt v = Except.ok (Int.ofNat r) := htrig.2
          rcases rowIdxBase_hit_lit rows w v r hnd hmem htrig.1 ht2 with ⟨b, hb, hrb⟩
          rw [hb, except_ok_bind] at h
          exact whereFold_sub cols w b l h r hrb
    · cases hbase : rowIdxBase rows w with
      | error e => rw [hbase, except_error_bind] at h; exact Except.noConfusion h
      | ok b =>
          rw [hbase, except_ok_bind] at h
          unfold clauseTrigger at htrig
          rw [if_neg hnm] at htrig
          exact whereFold_hit cols w b l nm cond r hmem hnm htrig h
  · intro rows cols w l r h hr
    simp only [rowAndColWhereRC] at h
    cases hrid : rowIdxsWhereRC rows cols (some w) with
    | error e => rw [hrid, except_error_bind] at h; exact Except.noConfusion h
    | ok rid =>
        rw [hrid, except_ok_bind] at h
        rcases conjFold_mem rows cols w rid [] l r h hr with hacc | ⟨names, hnames, hlen⟩
        · simp at hacc
        · intro p hp
          simp only [colNamesWhereRC] at hnames
          rcases colNamesFold_all rows r w [] names hnames with ⟨_, hall⟩
          exact hall (by simpa using hlen) p hp

/-- Witness for C9 at a concrete input: on the two-row table with
`where = {id: 0, name: "simple1"}`, row 2 triggers the single `id`
clause, and the first part of the theorem places it in the
`_row_idxs_where` union `[2, 3]`. -/
theorem traverse_disjunction_c9_witness :
    rowIdxsWhereRC tableT2.rows tableT2.cols (some where9) = Except.ok [2, 3] ∧
    2 ∈ ([2, 3] : List Nat) := by
  refine ⟨rfl, ?_⟩
  refine traverse_disjunction_c9.1 tableT2.rows tableT2.cols where9 "id"
    (Cond.lit (Value.int 0)) 2 [2, 3] ?_ ?_ ?_ rfl
  · exact List.mem_cons.2 (Or.inl rfl)
  · simp [where9]
  · unfold clauseTrigger
    rw [if_neg (by simp [COL_ROW_IDX])]
    refine ⟨[⟨2, 1, Value.int 0, []⟩, ⟨3, 1, Value.int 1, []⟩], ⟨2, 1, Value.int 0, []⟩,
      rfl, List.mem_cons.2 (Or.inl rfl), rfl, rfl⟩


theorem odLookup_some_mem_keys {κ α : Type} [DecidableEq κ] :
    ∀ (d : List (κ × α)) (k : κ) (v : α), odLookup d k = some v → k ∈ odKeys d := by
  intro d
  induction d with
  | nil => intro k v h; simp at h
  | cons p rest ih =>
      intro k v h
      simp only [odLookup_cons] at h
      by_cases hp : p.1 = k
      · exact List.mem_cons.2 (Or.inl hp.symm)
      · rw [if_neg hp] at h
        exact List.mem_cons.2 (Or.inr (ih k v h))

theorem mem_odSet_of_mem_ne {κ α : Type} [DecidableEq κ] :
    ∀ (d : List (κ × α)) (k : κ) (v : α) (x : κ × α), x ∈ d → x.1 ≠ k →
      x ∈ odSet d k v := by
  intro d
  induction d with
  | nil => intro k v x h; simp at h
  | cons p rest ih =>
      intro k v x hm hne
      by_cases hp : p.1 = k
      · rw [odSet_cons_eq v hp]
        rcases List.mem_cons.1 hm with h | h
        · exact absurd (h ▸ hp) hne
        · exact List.mem_cons.2 (Or.inr h)
      · rw [odSet_cons_ne v hp]
        rcases List.mem_cons.1 hm with h | h
        · exact List.mem_cons.2 (Or.inl h)
        · exact List.mem_cons.2 (Or.inr (ih k v x h hne))

theorem odSet_key1_mono {α : Type} (d : List ((Nat × Nat) × α)) (k : Nat × Nat) (K : Nat)
    (v : α) (h : ∃ kc ∈ d, kc.1.1 = K) : ∃ kc ∈ odSet d k v, kc.1.1 = K := by
  rcases h with ⟨kc, hm, hk⟩
  by_cases hkk : kc.1 = k
  · rcases odSet_key_mem d k v with ⟨kc', hm', hk'⟩
    exact ⟨kc', hm', by rw [hk', ← hkk, hk]⟩
  · exact ⟨kc, mem_odSet_of_mem_ne d k v kc hm hkk, hk⟩

theorem odSet_length_fresh {κ α : Type} [DecidableEq κ] (d : List (κ × α)) (k : κ) (v : α)
    (h : k ∉ odKeys d) : (odSet d k v).length = d.length + 1 := by
  have := odKeys_odSet_of_not_mem d k v h
  have h1 : (odKeys (odSet d k v)).length = (odKeys d ++ [k]).length := by rw [this]
  simp only [odKeys, List.length_map, List.length_append, List.length_cons,
    List.length_nil] at h1
  omega

theorem setRowIdx_names (idx : Nat) :
    ∀ (cids : List Cell) (row row' : List (String × Cell)),
      setRowIdx cids idx row = Except.ok row' →
      row'.map Prod.fst = row.map Prod.fst := by
  intro cids
  induction cids with
  | nil =>
      intro row row' h
      rw [show setRowIdx [] idx row = Except.ok row from rfl] at h
      injection h with h
      subst h
      rfl
  | cons cid rest ih =>
      intro row row' h
      rw [show setRowIdx (cid :: rest) idx row =
          (match odLookup row cid.nameStr with
           | Option.none => Except.error PyErr.keyError
           | some c => Except.ok (odSet row cid.nameStr { c with row := idx })) >>=
            fun r2 => setRowIdx rest idx r2 from rfl] at h
      cases hc : odLookup row cid.nameStr with
      | none => rw [hc] at h; exact Except.noConfusion h
      | some c =>
          rw [hc, except_ok_bind] at h
          have hkeys : (odSet row cid.nameStr { c with row := idx }).map Prod.fst =
              row.map Prod.fst :=
            odKeys_odSet_of_mem row cid.nameStr _ (odLookup_some_mem_keys row _ c hc)
          rw [ih _ row' h, hkeys]

theorem shiftFold_props (cids : List Cell) :
    ∀ (zs : List (Nat × List (String × Cell))) (d d₂ : Rows),
      zs.foldlM (shiftStep cids) d = Except.ok d₂ →
      (∀ x, x ∈ odKeys d₂ ↔ x ∈ odKeys d ∨ x ∈ zs.map Prod.fst) ∧
      ((odKeys d).Nodup → (odKeys d₂).Nodup) ∧
      (∀ names, (∀ r ∈ d.map Prod.snd, r.map Prod.fst = names) →
        (∀ z ∈ zs, z.2.map Prod.fst = names) →
        ∀ r ∈ d₂.map Prod.snd, r.map Prod.fst = names) := by
  intro zs
  induction zs with
  | nil =>
      intro d d₂ h
      rw [foldlM_except_nil] at h
      injection h with h
      subst h
      exact ⟨by simp, fun h => h, fun names hd _ => hd⟩
  | cons z zs ih =>
      intro d d₂ h
      rw [foldlM_except_cons] at h
      cases hstep : shiftStep cids d z with
      | error e => rw [hstep, except_error_bind] at h; exact Except.noConfusion h
      | ok d₁ =>
          rw [hstep, except_ok_bind] at h
          unfold shiftStep at hstep
          cases hsr : setRowIdx cids z.1 z.2 with
          | error e => rw [hsr, except_error_bind] at hstep; exact Except.noConfusion hstep
          | ok row' =>
              rw [hsr, except_ok_bind] at hstep
              injection hstep with hstep
              subst hstep
              rcases ih (odSet d z.1 row') d₂ h with ⟨hkeys, hnd, hval⟩
              refine ⟨?_, ?_, ?_⟩
              · intro x
                rw [hkeys x]
                rw [mem_odKeys_odSet]
                simp only [List.map_cons, List.mem_cons]
                tauto
              · intro hnd0
                exact hnd (nodup_odKeys_odSet d z.1 row' hnd0)
              · intro names hd hzs r hr
                refine hval names ?_ ?_ r hr
                · intro r2 hr2
                  rcases odSet_values_src d z.1 row' r2 hr2 with h' | h'
                  · exact hd r2 h'
                  · rw [h', setRowIdx_names z.1 cids z.2 row' hsr]
                    exact hzs z (List.mem_cons.2 (Or.inl rfl))
                · intro z2 hz2
                  exact hzs z2 (List.mem_cons.2 (Or.inr hz2))


theorem headerFold_mem (cids : List Cell) :
    ∀ (ws : List ((Nat × Nat) × Cell)) (kc : (Nat × Nat) × Cell),
      kc ∈ cids.foldl (fun ws cid => odSet ws (1, cid.col_idx)
        { row := 1, col_idx := cid.col_idx, value := cid.value }) ws →
      kc ∈ ws ∨ kc.1.1 = 1 := by
  induction cids with
  | nil => intro ws kc h; left; exact h
  | cons cid rest ih =>
      intro ws kc h
      rcases ih _ kc h with h' | h'
      · rcases mem_odSet_src ws (1, cid.col_idx) _ kc h' with h2 | h2
        · left; exact h2
        · right; rw [h2]
      · right; exact h'

theorem headerFold_exists (cids : List Cell) :
    ∀ (ws : List ((Nat × Nat) × Cell)), (∃ kc ∈ ws, kc.1.1 = 1) →
      ∃ kc ∈ cids.foldl (fun ws cid => odSet ws (1, cid.col_idx)
        { row := 1, col_idx := cid.col_idx, value := cid.value }) ws, kc.1.1 = 1 := by
  induction cids with
  | nil => intro ws h; exact h
  | cons cid rest ih =>
      intro ws h
      exact ih _ (odSet_key1_mono ws (1, cid.col_idx) 1 _ h)

theorem headerCells_mem (cids : List Cell) (kc : (Nat × Nat) × Cell)
    (h : kc ∈ headerCells cids) : kc.1.1 = 1 := by
  rcases headerFold_mem cids [] kc h with h' | h'
  · simp at h'
  · exact h'

theorem headerCells_exists (cids : List Cell) (h : cids ≠ []) :
    ∃ kc ∈ headerCells cids, kc.1.1 = 1 := by
  cases cids with
  | nil => exact absurd rfl h
  | cons cid rest =>
      have hunf : headerCells (cid :: rest) =
          rest.foldl (fun ws cid => odSet ws (1, cid.col_idx)
            { row := 1, col_idx := cid.col_idx, value := cid.value })
            (odSet ([] : List ((Nat × Nat) × Cell)) (1, cid.col_idx)
              { row := 1, col_idx := cid.col_idx, value := cid.value }) := rfl
      rw [hunf]
      refine headerFold_exists rest _ ?_
      rcases odSet_key_mem ([] : List ((Nat × Nat) × Cell)) (1, cid.col_idx)
        { row := 1, col_idx := cid.col_idx, value := cid.value } with ⟨kc, hm, hk⟩
      exact ⟨kc, hm, by rw [hk]⟩

theorem rebuildRow_props (rrow : Nat × List (String × Cell)) :
    ∀ (cids : List Cell) (cw cw₂ : Cols × List ((Nat × Nat) × Cell)),
      cids.foldlM (rebuildCellStep rrow) cw = Except.ok cw₂ →
      (∀ kc ∈ cw₂.2, kc ∈ cw.2 ∨ kc.1.1 = rrow.1) ∧
      (∀ K, (∃ kc ∈ cw.2, kc.1.1 = K) → ∃ kc ∈ cw₂.2, kc.1.1 = K) ∧
      (cids ≠ [] → ∃ kc ∈ cw₂.2, kc.1.1 = rrow.1) := by
  intro cids
  induction cids with
  | nil =>
      intro cw cw₂ h
      rw [foldlM_except_nil] at h
      injection h with h
      subst h
      exact ⟨fun kc h => Or.inl h, fun K h => h, fun h => absurd rfl h⟩
  | cons cid rest ih =>
      intro cw cw₂ h
      rw [foldlM_except_cons] at h
      cases hstep : rebuildCellStep rrow cw cid with
      | error e => rw [hstep, except_error_bind] at h; exact Except.noConfusion h
      | ok cw₁ =>
          rw [hstep, except_ok_bind] at h
          unfold rebuildCellStep at hstep
          cases hc : odLookup rrow.2 cid.nameStr with
          | none => simp only [hc] at hstep; exact Except.noConfusion hstep
          | some c =>
              simp only [hc] at hstep
              cases hcs : odLookup cw.1 cid.nameStr with
              | none => simp only [hcs] at hstep; exact Except.noConfusion hstep
              | some cs =>
                  simp only [hcs] at hstep
                  injection hstep with hstep
                  subst hstep
                  rcases ih _ cw₂ h with ⟨hmem, hmono, _⟩
                  refine ⟨?_, ?_, ?_⟩
                  · intro kc hkc
                    rcases hmem kc hkc with h' | h'
                    · rcases mem_odSet_src cw.2 (rrow.1, cid.col_idx) c kc h' with h2 | h2
                      · left; exact h2
                      · right; rw [h2]
                    · right; exact h'
                  · intro K hK
                    exact hmono K (odSet_key1_mono cw.2 (rrow.1, cid.col_idx) K c hK)
                  · intro _
                    refine hmono rrow.1 ?_
                    rcases odSet_key_mem cw.2 (rrow.1, cid.col_idx) c with ⟨kc, hm, hk⟩
                    exact ⟨kc, hm, by rw [hk]⟩

theorem rebuild_props (cids : List Cell) :
    ∀ (rlist : List (Nat × List (String × Cell)))
      (cw cw₂ : Cols × List ((Nat × Nat) × Cell)),
      rlist.foldlM (rebuildStep cids) cw = Except.ok cw₂ →
      (∀ kc ∈ cw₂.2, kc ∈ cw.2 ∨ kc.1.1 ∈ rlist.map Prod.fst) ∧
      (∀ K, (∃ kc ∈ cw.2, kc.1.1 = K) → ∃ kc ∈ cw₂.2, kc.1.1 = K) ∧
      (cids ≠ [] → ∀ r ∈ rlist.map Prod.fst, ∃ kc ∈ cw₂.2, kc.1.1 = r) := by
  intro rlist
  induction rlist with
  | nil =>
      intro cw cw₂ h
      rw [foldlM_except_nil] at h
      injection h with h
      subst h
      exact ⟨fun kc h => Or.inl h, fun K h => h, fun _ r hr => absurd hr (by simp)⟩
  | cons rrow rlist ih =>
      intro cw cw₂ h
      rw [foldlM_except_cons] at h
      cases hstep : rebuildStep cids cw rrow with
      | error e => rw [hstep, except_error_bind] at h; exact Except.noConfusion h
      | ok cw₁ =>
          rw [hstep, except_ok_bind] at h
          unfold rebuildStep at hstep
          rcases rebuildRow_props rrow cids cw cw₁ hstep with ⟨hmem1, hmono1, hex1⟩
          rcases ih cw₁ cw₂ h with ⟨hmem2, hmono2, hex2⟩
          refine ⟨?_, ?_, ?_⟩
          · intro kc hkc
            rcases hmem2 kc hkc with h' | h'
            · rcases hmem1 kc h' with h2 | h2
              · left; exact h2
              · right; simp only [List.map_cons, List.mem_cons]; left; exact h2
            · right; simp only [List.map_cons, List.mem_cons]; right; exact h'
          · intro K hK
            exact hmono2 K (hmono1 K hK)
          · intro hne r hr
            simp only [List.map_cons, List.mem_cons] at hr
            rcases hr with hr | hr
            · subst hr
              exact hmono2 rrow.1 (hex1 hne)
            · exact hex2 hne r hr


theorem insertRegFold_names (ws : List ((Nat × Nat) × Cell)) (nridx : Nat) :
    ∀ (cids : List Cell) (row0 : List (String × Cell)) (cols0 : Cols)
      (rc : List (String × Cell) × Cols),
      cids.foldlM (insertRegStep ws nridx) (row0, cols0) = Except.ok rc →
      (cids.map Cell.nameStr).Nodup →
      (∀ cid ∈ cids, cid.nameStr ∉ row0.map Prod.fst) →
      rc.1.map Prod.fst = row0.map Prod.fst ++ cids.map Cell.nameStr := by
  intro cids
  induction cids with
  | nil =>
      intro row0 cols0 rc h _ _
      rw [foldlM_except_nil] at h
      injection h with h
      subst h
      simp
  | cons cid rest ih =>
      intro row0 cols0 rc h hnd hfresh
      rw [foldlM_except_cons] at h
      cases hstep : insertRegStep ws nridx (row0, cols0) cid with
      | error e => rw [hstep, except_error_bind] at h; exact Except.noConfusion h
      | ok rc1 =>
          rw [hstep, except_ok_bind] at h
          unfold insertRegStep at hstep
          cases hcw : odLookup ws (nridx, cid.col_idx) with
          | none => simp only [hcw] at hstep; exact Except.noConfusion hstep
          | some c =>
              simp only [hcw] at hstep
              cases hcs : odLookup cols0 cid.nameStr with
              | none => simp only [hcs] at hstep; exact Except.noConfusion hstep
              | some cs =>
                  simp only [hcs] at hstep
                  injection hstep with hstep
                  subst hstep
                  have hfresh0 : cid.nameStr ∉ row0.map Prod.fst :=
                    hfresh cid (List.mem_cons.2 (Or.inl rfl))
                  have hrow1 : (odSet row0 cid.nameStr c).map Prod.fst =
                      row0.map Prod.fst ++ [cid.nameStr] :=
                    odKeys_odSet_of_not_mem row0 cid.nameStr c hfresh0
                  have hnd2 : cid.nameStr ∉ List.map Cell.nameStr rest ∧
                      (List.map Cell.nameStr rest).Nodup := List.nodup_cons.1 hnd
                  obtain ⟨hcidnd, hrestnd⟩ := hnd2
                  have := ih (odSet row0 cid.nameStr c) (odSet cols0 cid.nameStr (cs ++ [c]))
                    rc h hrestnd (by
                      intro cid2 hcid2
                      rw [hrow1]
                      intro hmem
                      rcases List.mem_append.1 hmem with h2 | h2
                      · exact hfresh cid2 (List.mem_cons.2 (Or.inr hcid2)) h2
                      · have : cid2.nameStr = cid.nameStr := by simpa using h2
                        exact hcidnd (this ▸ List.mem_map.2 ⟨cid2, hcid2, rfl⟩))
                  rw [this, hrow1]
                  simp

theorem localInsert_inv (t : LocalTable) (data : List (String × Value)) (t' : LocalTable)
    (idx : Nat) (hinv : invB t = true) (h : localInsert t data = Except.ok (t', idx)) :
    invB t' = true := by
  simp only [invB, Bool.and_eq_true, decide_eq_true_eq] at hinv
  obtain ⟨⟨⟨⟨ha, hb⟩, hcall⟩, hd⟩, he⟩ := hinv
  have hc : ∀ p ∈ t.rows, p.2.map Prod.fst = t.col_ids.map Cell.nameStr := by
    intro p hp
    exact of_decide_eq_true (List.all_eq_true.1 hcall p hp)
  cases hvals : t.col_ids.mapM (insertValFn data) with
  | error e =>
      simp only [localInsert, hvals, except_error_bind] at h
      exact Except.noConfusion h
  | ok vals =>
      simp only [localInsert, hvals, except_ok_bind] at h
      rcases mapM_except_ok (insertValFn data) t.col_ids vals hvals with ⟨hvlen, _⟩
      have hvne : vals ≠ [] := by
        intro hv
        subst hv
        simp only [List.length_nil] at hvlen
        exact hd (List.eq_nil_of_length_eq_zero hvlen.symm)
      generalize hws : appendCells t.wsCells (wsMaxRow t + 1) vals = ws1 at h
      cases hrc : t.col_ids.foldlM
          (insertRegStep ws1 (wsMaxRow { t with wsCells := ws1 }))
          (([] : List (String × Cell)), t.cols) with
      | error e => rw [hrc, except_error_bind] at h; exact Except.noConfusion h
      | ok rc =>
          rw [hrc, except_ok_bind] at h
          injection h with h
          injection h with h1 h2
          have hwt : wsMaxRow t = t.wsCells.foldl (fun m kc => max m kc.1.1) 1 := rfl
          have hw1 : wsMaxRow { t with wsCells := ws1 } =
              ws1.foldl (fun m kc => max m kc.1.1) 1 := rfl
          have hub : ∀ kc ∈ ws1, kc.1.1 ≤ wsMaxRow t + 1 := by
            intro kc hm
            rcases appendCells_mem vals t.wsCells (wsMaxRow t + 1) kc (hws ▸ hm)
              with h' | h'
            · have := foldl_max_mem_le t.wsCells 1 kc h'
              omega
            · omega
          rcases hws ▸ appendCells_key_mem vals t.wsCells (wsMaxRow t + 1) hvne
            with ⟨kc0, hm0, hk0⟩
          have hge : wsMaxRow t + 1 ≤ wsMaxRow { t with wsCells := ws1 } := by
            have := foldl_max_mem_le ws1 1 kc0 hm0
            omega
          have hle : wsMaxRow { t with wsCells := ws1 } ≤ wsMaxRow t + 1 := by
            rcases foldl_max_cases ws1 1 with hcse | ⟨kc, hm, hk⟩
            · omega
            · rw [hw1, ← hk]
              exact hub kc hm
          have hmx : wsMaxRow { t with wsCells := ws1 } = t.rows.length + 2 := by
            omega
          rw [hmx] at h1 h2 hrc
          subst h1
          subst h2
          -- the new row index is fresh
          have hfresh : t.rows.length + 2 ∉ odKeys t.rows := by
            rw [ha]
            intro hmem
            have := List.mem_range'_1.1 hmem
            omega
          have hkeys : odKeys (odSet t.rows (t.rows.length + 2) rc.1) =
              List.range' 2 t.rows.length ++ [t.rows.length + 2] := by
            rw [odKeys_odSet_of_not_mem t.rows _ rc.1 hfresh, ha]
          have hlen : (odSet t.rows (t.rows.length + 2) rc.1).length =
              t.rows.length + 1 :=
            odSet_length_fresh t.rows _ rc.1 hfresh
          have hnames : rc.1.map Prod.fst = t.col_ids.map Cell.nameStr := by
            have := insertRegFold_names ws1 (t.rows.length + 2) t.col_ids [] t.cols rc
              hrc he (by intro cid _; simp)
            simpa using this
          simp only [invB, Bool.and_eq_true, decide_eq_true_eq]
          refine ⟨⟨⟨⟨?_, ?_⟩, ?_⟩, hd⟩, he⟩
          · show odKeys (odSet t.rows (t.rows.length + 2) rc.1) =
              List.range' 2 (odSet t.rows (t.rows.length + 2) rc.1).length
            rw [hkeys, hlen, List.range'_1_concat]
            have : 2 + t.rows.length = t.rows.length + 2 := by omega
            rw [this]
          · show ws1.foldl (fun m kc => max m kc.1.1) 1 =
              (odSet t.rows (t.rows.length + 2) rc.1).length + 1
            rw [hlen]
            omega
          · refine List.all_eq_true.2 ?_
            intro p hp
            refine decide_eq_true ?_
            rcases mem_odSet_src t.rows (t.rows.length + 2) rc.1 p hp with h' | h'
            · exact hc p h'
            · rw [h']
              exact hnames


theorem localDelete_ok_inv (t : LocalTable) (w : Option Where) (t' : LocalTable)
    (res : Option Nat) (h : localDelete t w = Except.ok (t', res)) :
    (rowAndColWhereRC t.rows t.cols w = Except.ok [] ∧ t' = t ∧ res = Option.none) ∨
    (∃ a as rows1 rows2 rows3 cols0 cw,
      rowAndColWhereRC t.rows t.cols w = Except.ok (a :: as) ∧
      popChain (a :: as) t.rows = some rows1 ∧
      ((List.range' (listMin a as) (wsMaxRow t + 1 - listMin a as)).zip
        ((rows1.map Prod.snd).drop (listMin a as - 2))).foldlM (shiftStep t.col_ids) rows1
        = Except.ok rows2 ∧
      popChain (((List.range (a :: as).length).map (fun i => wsMaxRow t - i)).filter
        (fun k => decide (k ∉ a :: as))) rows2 = some rows3 ∧
      t.col_ids.foldlM clearColsStep t.cols = Except.ok cols0 ∧
      (odSortByKey rows3).foldlM (rebuildStep t.col_ids) (cols0, headerCells t.col_ids)
        = Except.ok cw ∧
      t' = { t with rows := odSortByKey rows3, cols := cw.1, wsCells := cw.2 } ∧
      res = some (a :: as).length) := by
  cases hL : rowAndColWhereRC t.rows t.cols w with
  | error e =>
      simp only [localDelete, hL, except_error_bind] at h
      exact Except.noConfusion h
  | ok L0 =>
      simp only [localDelete, hL, except_ok_bind] at h
      cases L0 with
      | nil =>
          left
          injection h with h
          injection h with h1 h2
          exact ⟨rfl, h1.symm, h2.symm⟩
      | cons a as =>
          right
          cases hpc : popChain (a :: as) t.rows with
          | none =>
              simp only [hpc, except_error_bind] at h
              exact Except.noConfusion h
          | some rows1 =>
              simp only [hpc, except_ok_bind] at h
              cases hsf : ((List.range' (listMin a as) (wsMaxRow t + 1 - listMin a as)).zip
                  ((rows1.map Prod.snd).drop (listMin a as - 2))).foldlM
                  (shiftStep t.col_ids) rows1 with
              | error e => rw [hsf, except_error_bind] at h; exact Except.noConfusion h
              | ok rows2 =>
                  rw [hsf, except_ok_bind] at h
                  cases htp : popChain (((List.range (a :: as).length).map
                      (fun i => wsMaxRow t - i)).filter (fun k => decide (k ∉ a :: as)))
                      rows2 with
                  | none =>
                      simp only [htp, except_error_bind] at h
                      exact Except.noConfusion h
                  | some rows3 =>
                      simp only [htp, except_ok_bind] at h
                      cases hc0 : t.col_ids.foldlM clearColsStep t.cols with
                      | error e =>
                          rw [hc0, except_error_bind] at h
                          exact Except.noConfusion h
                      | ok cols0 =>
                          rw [hc0, except_ok_bind] at h
                          cases hcw : (odSortByKey rows3).foldlM (rebuildStep t.col_ids)
                              (cols0, headerCells t.col_ids) with
                          | error e =>
                              rw [hcw, except_error_bind] at h
                              exact Except.noConfusion h
                          | ok cw =>
                              rw [hcw, except_ok_bind] at h
                              injection h with h
                              injection h with h1 h2
                              exact ⟨a, as, rows1, rows2, rows3, cols0, cw, rfl, hpc, hsf,
                                htp, rfl, hcw, h1.symm, h2.symm⟩


theorem localDelete_inv (t : LocalTable) (w : Option Where) (t' : LocalTable)
    (res : Option Nat) (hinv : invB t = true)
    (h : localDelete t w = Except.ok (t', res)) : invB t' = true := by
  rcases localDelete_ok_inv t w t' res h with ⟨_, ht, _⟩ |
    ⟨a, as, rows1, rows2, rows3, cols0, cw, hL, hpc, hsf, htp, hc0, hcw, ht', hres⟩
  · subst ht; exact hinv
  · simp only [invB, Bool.and_eq_true, decide_eq_true_eq] at hinv
    obtain ⟨⟨⟨⟨ha, hb⟩, hcall⟩, hd⟩, he⟩ := hinv
    have hc : ∀ p ∈ t.rows, p.2.map Prod.fst = t.col_ids.map Cell.nameStr :=
      fun p hp => of_decide_eq_true (List.all_eq_true.1 hcall p hp)
    -- abbreviations (plain equalities, used by omega)
    have hn : t.rows.length = t.rows.length := rfl
    -- popChain facts for the matched rows
    have hndK : (odKeys t.rows).Nodup := by
      rw [ha]; exact List.nodup_range' 2 t.rows.length
    rcases popChain_ok (a :: as) t.rows rows1 hndK hpc with ⟨hrows1, hLnd, hLsub⟩
    have hLbounds : ∀ k ∈ a :: as, 2 ≤ k ∧ k < 2 + t.rows.length := by
      intro k hk
      have hx := hLsub k hk
      rw [ha] at hx
      exact List.mem_range'_1.1 hx
    have hALle : (a :: as).length ≤ t.rows.length := by
      have h1 := nodup_subset_length_le hLnd (List.nodup_range' 2 t.rows.length)
        (by intro k hk; rw [← ha]; exact hLsub k hk)
      simpa using h1
    have hfirstmem : listMin a as ∈ a :: as := listMin_mem a as
    have hfirstle : ∀ k ∈ a :: as, listMin a as ≤ k := listMin_le a as
    have hfirst2 : 2 ≤ listMin a as ∧ listMin a as < 2 + t.rows.length :=
      hLbounds (listMin a as) hfirstmem
    have hALfirst : (a :: as).length ≤ t.rows.length + 2 - listMin a as := by
      have h1 := nodup_subset_length_le hLnd
        (List.nodup_range' (listMin a as) (t.rows.length + 2 - listMin a as))
        (by intro k hk
            refine List.mem_range'_1.2 ⟨hfirstle k hk, ?_⟩
            have h2 := (hLbounds k hk).2
            omega)
      simpa using h1
    have hALpos : 1 ≤ (a :: as).length := by simp
    -- keys and length of the popped row store
    have hk1 : odKeys rows1 =
        (List.range' 2 t.rows.length).filter (fun x => decide (x ∉ a :: as)) := by
      rw [hrows1, odKeys_filter_not_mem, ha]
    have hlen1 : rows1.length = t.rows.length - (a :: as).length := by
      have h1 : ((List.range' 2 t.rows.length).filter
          (fun x => decide (x ∉ a :: as))).length =
          (List.range' 2 t.rows.length).length - (a :: as).length :=
        length_filter_not_mem (a :: as) (List.range' 2 t.rows.length)
          (List.nodup_range' 2 t.rows.length) hLnd
          (fun k hk => by rw [← ha]; exact hLsub k hk)
      have h2 : (odKeys rows1).length = rows1.length := by simp [odKeys]
      rw [hk1] at h2
      have h3 : (List.range' 2 t.rows.length).length = t.rows.length := by simp
      omega
    -- shift fold: written keys form a contiguous block
    rw [hb] at hsf
    rcases shiftFold_props t.col_ids _ rows1 rows2 hsf with ⟨hk2iff, hnd2, hval2⟩
    have hzs : ((List.range' (listMin a as) (t.rows.length + 1 + 1 - listMin a as)).zip
        ((rows1.map Prod.snd).drop (listMin a as - 2))).map Prod.fst =
        List.range' (listMin a as)
          (t.rows.length + 2 - listMin a as - (a :: as).length) := by
      rw [map_fst_zip_take, take_range']
      congr 1
      have hdrop : ((rows1.map Prod.snd).drop (listMin a as - 2)).length
          = rows1.length - (listMin a as - 2) := by simp
      rw [hdrop, hlen1]
      omega
    have hk2 : ∀ x, x ∈ odKeys rows2 ↔
        (((2 ≤ x ∧ x < 2 + t.rows.length) ∧ x ∉ a :: as) ∨
         (listMin a as ≤ x ∧
          x < listMin a as + (t.rows.length + 2 - listMin a as - (a :: as).length))) := by
      intro x
      rw [hk2iff x, hzs, hk1]
      simp only [List.mem_filter, List.mem_range'_1, decide_eq_true_eq]
    have hnd1 : (odKeys rows1).Nodup := by
      rw [hk1]
      exact List.Nodup.filter _ (List.nodup_range' 2 t.rows.length)
    have hndk2 := hnd2 hnd1
    -- trailing pops
    rw [hb] at htp
    rcases popChain_ok _ rows2 rows3 hndk2 htp with ⟨hrows3, hTnd, hTsub⟩
    have hT : ∀ x, x ∈ ((List.range (a :: as).length).map
        (fun i => t.rows.length + 1 - i)).filter (fun k => decide (k ∉ a :: as)) ↔
        ((t.rows.length + 2 - (a :: as).length ≤ x ∧ x ≤ t.rows.length + 1) ∧
         x ∉ a :: as) := by
      intro x
      simp only [List.mem_filter, List.mem_map, List.mem_range, decide_eq_true_eq]
      constructor
      · rintro ⟨⟨i, hi, hx⟩, hnL⟩
        refine ⟨⟨?_, ?_⟩, hnL⟩ <;> omega
      · rintro ⟨⟨h1, h2⟩, hnL⟩
        exact ⟨⟨t.rows.length + 1 - x, by omega, by omega⟩, hnL⟩
    have hk3 : ∀ x, x ∈ odKeys rows3 ↔
        (2 ≤ x ∧ x ≤ t.rows.length + 1 - (a :: as).length) := by
      intro x
      have hkeq : odKeys rows3 = (odKeys rows2).filter (fun y => decide (y ∉
          ((List.range (a :: as).length).map (fun i => t.rows.length + 1 - i)).filter
            (fun k => decide (k ∉ a :: as)))) := by
        rw [hrows3]
        exact odKeys_filter_not_mem rows2 _
      rw [hkeq, List.mem_filter, hk2 x]
      simp only [decide_eq_true_eq]
      rw [not_iff_not.2 (hT x)]
      constructor
      · rintro ⟨hmem, hnotT⟩
        by_cases hxl : x ∈ a :: as
        · have hfx := hfirstle x hxl
          rcases hmem with ⟨h1, hxnl⟩ | ⟨h1, h2⟩
          · exact absurd hxl hxnl
          · constructor <;> omega
        · have hnb : ¬(t.rows.length + 2 - (a :: as).length ≤ x ∧
              x ≤ t.rows.length + 1) := fun hq => hnotT ⟨hq, hxl⟩
          rcases hmem with ⟨⟨h1, h2⟩, h3⟩ | ⟨h1, h2⟩
          · constructor <;> omega
          · constructor <;> omega
      · rintro ⟨h1, h2⟩
        constructor
        · by_cases hxl : x ∈ a :: as
          · have hfx := hfirstle x hxl
            exact Or.inr ⟨hfx, by omega⟩
          · exact Or.inl ⟨⟨h1, by omega⟩, hxl⟩
        · rintro ⟨⟨hq1, hq2⟩, hq3⟩
          omega
    have hndk3 : (odKeys rows3).Nodup := by
      have hkeq : odKeys rows3 = (odKeys rows2).filter (fun y => decide (y ∉
          ((List.range (a :: as).length).map (fun i => t.rows.length + 1 - i)).filter
            (fun k => decide (k ∉ a :: as)))) := by
        rw [hrows3]
        exact odKeys_filter_not_mem rows2 _
      rw [hkeq]
      exact List.Nodup.filter _ hndk2
    -- the sorted row store has exactly the contiguous keys
    have hsorted : List.Sorted (fun p q => p.1 ≤ q.1) (odSortByKey rows3) :=
      List.sorted_insertionSort _ rows3
    have hperm : List.Perm (odSortByKey rows3) rows3 := List.perm_insertionSort _ rows3
    have hpermk : List.Perm ((odSortByKey rows3).map Prod.fst) (rows3.map Prod.fst) :=
      hperm.map Prod.fst
    have hnd4 : ((odSortByKey rows3).map Prod.fst).Nodup := hpermk.nodup_iff.2 hndk3
    have hmemiff : ∀ x, x ∈ (odSortByKey rows3).map Prod.fst ↔
        x ∈ List.range' 2 (t.rows.length - (a :: as).length) := by
      intro x
      rw [hpermk.mem_iff]
      have hx3 : x ∈ rows3.map Prod.fst ↔ x ∈ odKeys rows3 := Iff.rfl
      rw [hx3, hk3 x, List.mem_range'_1]
      omega
    have hpermr : List.Perm ((odSortByKey rows3).map Prod.fst)
        (List.range' 2 (t.rows.length - (a :: as).length)) :=
      (List.perm_ext_iff_of_nodup hnd4
        (List.nodup_range' 2 (t.rows.length - (a :: as).length))).2 hmemiff
    have hsortedk : ((odSortByKey rows3).map Prod.fst).Sorted (· ≤ ·) :=
      List.pairwise_map.2 hsorted
    have hkeys4 : (odSortByKey rows3).map Prod.fst =
        List.range' 2 (t.rows.length - (a :: as).length) :=
      List.eq_of_perm_of_sorted hpermr hsortedk
        (List.pairwise_le_range' 2 (t.rows.length - (a :: as).length))
    have hlen4 : (odSortByKey rows3).length = t.rows.length - (a :: as).length := by
      have h1 := congrArg List.length hkeys4
      simpa using h1
    -- rebuild: worksheet extent
    rcases rebuild_props t.col_ids (odSortByKey rows3) (cols0, headerCells t.col_ids) cw hcw
      with ⟨hwmem, hwmono, hwex⟩
    have hub : ∀ kc ∈ cw.2, kc.1.1 ≤ (t.rows.length - (a :: as).length) + 1 := by
      intro kc hm
      rcases hwmem kc hm with h' | h'
      · have h2 := headerCells_mem t.col_ids kc h'
        omega
      · rw [hkeys4] at h'
        have h2 := List.mem_range'_1.1 h'
        omega
    have hex1 : ∃ kc ∈ cw.2, kc.1.1 = 1 :=
      hwmono 1 (headerCells_exists t.col_ids hd)
    have hwmr : cw.2.foldl (fun m kc => max m kc.1.1) 1 =
        (t.rows.length - (a :: as).length) + 1 := by
      rcases hex1 with ⟨kc1, hm1, hk1'⟩
      by_cases hm0 : t.rows.length - (a :: as).length = 0
      · rcases foldl_max_cases cw.2 1 with hcs | ⟨kc, hm, hk⟩
        · omega
        · have h2 := hub kc hm
          have hinit := foldl_max_le_init cw.2 1
          omega
      · have hkmem : (t.rows.length - (a :: as).length) + 1 ∈
            List.range' 2 (t.rows.length - (a :: as).length) :=
          List.mem_range'_1.2 (by omega)
        have hex2 : ∃ kc ∈ cw.2, kc.1.1 = (t.rows.length - (a :: as).length) + 1 := by
          apply hwex hd
          rw [hkeys4]
          exact hkmem
        rcases hex2 with ⟨kc2, hm2, hk2'⟩
        have hge := foldl_max_mem_le cw.2 1 kc2 hm2
        rcases foldl_max_cases cw.2 1 with hcs | ⟨kc, hm, hk⟩
        · omega
        · have h2 := hub kc hm
          omega
    -- row dict names survive
    have hval4 : ∀ p ∈ odSortByKey rows3,
        p.2.map Prod.fst = t.col_ids.map Cell.nameStr := by
      intro p hp
      have hp3 : p ∈ rows3 := hperm.mem_iff.1 hp
      have hp2 : p ∈ rows2 := by
        rw [hrows3] at hp3
        exact (List.mem_filter.1 hp3).1
      refine hval2 (t.col_ids.map Cell.nameStr) ?_ ?_ p.2 (List.mem_map.2 ⟨p, hp2, rfl⟩)
      · intro r hr
        rcases List.mem_map.1 hr with ⟨q, hq, hqe⟩
        have hq1 : q ∈ t.rows := by
          rw [hrows1] at hq
          exact (List.mem_filter.1 hq).1
        rw [← hqe]
        exact hc q hq1
      · intro z hz
        obtain ⟨z1, z2⟩ := z
        have hz2 := (List.of_mem_zip hz).2
        have hz3 : z2 ∈ rows1.map Prod.snd := List.mem_of_mem_drop hz2
        rcases List.mem_map.1 hz3 with ⟨q, hq, hqe⟩
        have hq1 : q ∈ t.rows := by
          rw [hrows1] at hq
          exact (List.mem_filter.1 hq).1
        rw [← hqe]
        exact hc q hq1
    -- assemble the invariant for the new state
    subst ht'
    simp only [invB, Bool.and_eq_true, decide_eq_true_eq]
    refine ⟨⟨⟨⟨?_, ?_⟩, ?_⟩, hd⟩, he⟩
    · show odKeys (odSortByKey rows3) = List.range' 2 (odSortByKey rows3).length
      rw [hlen4]
      exact hkeys4
    · show cw.2.foldl (fun m kc => max m kc.1.1) 1 = (odSortByKey rows3).length + 1
      rw [hlen4]
      exact hwmr
    · refine List.all_eq_true.2 ?_
      intro p hp
      exact decide_eq_true (hval4 p hp)


theorem runOps_inv (ops : List TableOp) : ∀ t t1 : LocalTable, invB t = true →
    runOps t ops = Except.ok t1 → invB t1 = true := by
  induction ops with
  | nil =>
    intro t t1 hinv h
    simp only [runOps] at h
    cases h
    exact hinv
  | cons op rest ih =>
    intro t t1 hinv h
    simp only [runOps] at h
    cases hap : applyOp t op with
    | error e =>
      rw [hap] at h
      exact Except.noConfusion h
    | ok t2 =>
      rw [hap] at h
      refine ih t2 t1 ?_ h
      cases op with
      | insertOp d =>
        cases hi : localInsert t d with
        | error e =>
          simp only [applyOp, hi, Except.map] at hap
          exact Except.noConfusion hap
        | ok pr =>
          obtain ⟨t2e, idx⟩ := pr
          simp only [applyOp, hi, Except.map] at hap
          cases hap
          exact localInsert_inv t d _ idx hinv hi
      | deleteOp w =>
        cases hi : localDelete t w with
        | error e =>
          simp only [applyOp, hi, Except.map] at hap
          exact Except.noConfusion hap
        | ok pr =>
          obtain ⟨t2e, res⟩ := pr
          simp only [applyOp, hi, Except.map] at hap
          cases hap
          exact localDelete_inv t w _ res hinv hi

/-- C1: for every sequence of insert and delete operations run on a
well-formed local table, after the operations return the keys of `rows`
are exactly the contiguous range `{2, 3, ..., size + 1}` in order — no
gaps and no duplicates (row index 1 is reserved for the header). Since
the sequence is arbitrary, this holds after each individual operation of
any run. -/
theorem contiguity_c1 (t0 : LocalTable) (ops : List TableOp) (t1 : LocalTable)
    (h0 : invB t0 = true) (h : runOps t0 ops = Except.ok t1) :
    odKeys t1.rows = List.range' 2 t1.size := by
  have hi := runOps_inv ops t0 t1 h0 h
  simp only [invB, Bool.and_eq_true, decide_eq_true_eq] at hi
  exact hi.1.1.1.1

theorem contiguity_c1_witness :
    invB tableT0 = true ∧ runOps tableT0 (insOps 5) = Except.ok tableT5 ∧
    odKeys tableT5.rows = List.range' 2 tableT5.size :=
  ⟨rfl, rfl, contiguity_c1 tableT0 (insOps 5) tableT5 rfl rfl⟩

end Cellbase
